import Mathlib

/-!
Verification of the `stream-healer` repository's JSON stream-healing core.

The file embeds, as executable Lean definitions:
* the reference implementation `src/docs/ref.ts` (`StreamHealer`: preamble
  stripping, the structural scanner `analyzeState`, `process`, `finish`,
  `getMissingRequiredKeys`) — definitions prefixed `ref`/`R`;
* the schema-aware healer described by the specification (the shipped
  `src/healer.ts` is not present in the repository snapshot; only its tests,
  README and callers are), with `$ref` resolution and `default` injection —
  definitions prefixed `spec`/`S`;
* a character-level JSON validity checker (`jsonOk`) used to state
  well-formedness claims.

Strings are modelled as `List Char`; the TypeScript `for (const c of text)`
loop becomes `List.foldl` over the characters.
-/

/-- The character `{` (written via its code to keep it out of string scans). -/
def lbrace : Char := '\x7b'

/-- The character `}`. -/
def rbrace : Char := '\x7d'

/-- The character `[`. -/
def lbrack : Char := '['

/-- The character `]`. -/
def rbrack : Char := ']'

/-- `true` iff `c` is `{` or `[` — the regex `[{\[]` in `process`. -/
def isOpener (c : Char) : Bool := c = lbrace || c = lbrack

/-- `true` iff `c` is `}` or `]`. -/
def isCloser (c : Char) : Bool := c = rbrace || c = rbrack

/-- One frame of the healer's nesting stack (interface `StackFrame` of
`src/docs/ref.ts`): the expected closing character, whether the container is
an object, the set of keys seen (modelled as a duplicate-free list), and the
key currently being parsed (`null` = `none`). -/
structure RFrame where
  char : Char
  isObject : Bool
  keysSeen : List (List Char)
  currentKey : Option (List Char)
  deriving Repr, DecidableEq

/-- The mutable state of `StreamHealer` in `src/docs/ref.ts`.  The stack is
kept head-innermost (`push` is `cons`), mirroring the `this.stack` array whose
last element is the innermost frame. -/
structure RState where
  buffer : List Char
  hasStartedJson : Bool
  stack : List RFrame
  inString : Bool
  isEscaped : Bool
  pendingKeyBuffer : List Char
  deriving Repr, DecidableEq

/-- The state of a freshly constructed healer. -/
def rInit : RState :=
  { buffer := [], hasStartedJson := false, stack := [], inString := false,
    isEscaped := false, pendingKeyBuffer := [] }

/-- `Set.add` on the key list: insert if absent. -/
def insertKey (k : List Char) (ks : List (List Char)) : List (List Char) :=
  if k ∈ ks then ks else k :: ks

/-- A fresh object frame, as pushed on `{`. -/
def objFrame : RFrame := { char := rbrace, isObject := true, keysSeen := [], currentKey := none }

/-- A fresh array frame, as pushed on `[`. -/
def arrFrame : RFrame := { char := rbrack, isObject := false, keysSeen := [], currentKey := none }

/-- One character of `StreamHealer.analyzeState` (`src/docs/ref.ts`,
lines 126–177). -/
def refStep (st : RState) (c : Char) : RState :=
  if st.inString then
    if st.isEscaped then { st with isEscaped := false }
    else if c = '\\' then { st with isEscaped := true }
    else if c = '"' then
      match st.stack with
      | top :: rest =>
        if top.isObject && top.currentKey = none then
          let top' := { top with currentKey := some st.pendingKeyBuffer,
                                 keysSeen := insertKey st.pendingKeyBuffer top.keysSeen }
          { st with inString := false, stack := top' :: rest }
        else { st with inString := false }
      | [] => { st with inString := false }
    else
      match st.stack with
      | top :: _ =>
        if top.isObject && top.currentKey = none then
          { st with pendingKeyBuffer := st.pendingKeyBuffer ++ [c] }
        else st
      | [] => st
  else
    if c = '"' then { st with inString := true, pendingKeyBuffer := [] }
    else if c = ':' then st
    else if c = ',' then
      match st.stack with
      | top :: rest =>
        if top.isObject then { st with stack := { top with currentKey := none } :: rest } else st
      | [] => st
    else if c = lbrace then { st with stack := objFrame :: st.stack }
    else if c = lbrack then { st with stack := arrFrame :: st.stack }
    else if c = rbrace || c = rbrack then
      match st.stack with
      | top :: rest => if top.char = c then { st with stack := rest } else st
      | [] => st
    else st

/-- `analyzeState` over a whole text. -/
def refScan (st : RState) (text : List Char) : RState := text.foldl refStep st

/-- Split a buffer at the first structural opener:
`some (pre, rest)` with `buffer = pre ++ rest`, `pre` opener-free and `rest`
beginning with the opener (`buffer.search(/[{\[]/)` followed by `slice`). -/
def splitAtOpener : List Char → Option (List Char × List Char)
  | [] => none
  | c :: cs =>
    if isOpener c then some ([], c :: cs)
    else (splitAtOpener cs).map (fun pr => (c :: pr.1, pr.2))

/-- `MAX_PREAMBLE_BUFFER` from `src/docs/ref.ts`. -/
def MAX_PREAMBLE : Nat := 500

/-- `StreamHealer.process` (`src/docs/ref.ts`, lines 45–73): returns the new
state and the forwarded text. -/
def refProcess (st : RState) (chunk : List Char) : RState × List Char :=
  if st.hasStartedJson then (refScan st chunk, chunk)
  else
    let b := st.buffer ++ chunk
    match splitAtOpener b with
    | some pr =>
      (refScan { st with buffer := [], hasStartedJson := true } pr.2, pr.2)
    | none =>
      if MAX_PREAMBLE < b.length then
        (refScan { st with buffer := [], hasStartedJson := true } b, b)
      else ({ st with buffer := b }, [])

/-- Feed a list of chunks through `process`, collecting the forwarded output. -/
def refProcessAll (st : RState) : List (List Char) → RState × List Char
  | [] => (st, [])
  | ch :: chs =>
    let p := refProcess st ch
    let q := refProcessAll p.1 chs
    (q.1, p.2 ++ q.2)

/-- The `JsonSchema` interface of `src/docs/ref.ts` (lines 17–23): `type`,
`properties`, `required`, `items`.  (`$ref` is declared there but never read
by the implementation — "this is a basic stub" — so it carries no data here.) -/
inductive RSchema : Type where
  | mk : Option (List Char) → List (List Char × RSchema) → Option (List (List Char)) →
         Option RSchema → RSchema

/-- `schema.type`. -/
def RSchema.type : RSchema → Option (List Char)
  | .mk t _ _ _ => t

/-- `schema.properties`. -/
def RSchema.properties : RSchema → List (List Char × RSchema)
  | .mk _ p _ _ => p

/-- `schema.required`. -/
def RSchema.required : RSchema → Option (List (List Char))
  | .mk _ _ r _ => r

/-- `schema.items`. -/
def RSchema.items : RSchema → Option RSchema
  | .mk _ _ _ i => i

/-- `properties[name]` lookup. -/
def rLookup (k : List Char) : List (List Char × RSchema) → Option RSchema
  | [] => none
  | p :: ps => if p.1 = k then some p.2 else rLookup k ps

/-- One navigation step of the loop in `getMissingRequiredKeys`
(`src/docs/ref.ts`, lines 201–223), descending from the schema of a parent
frame into the child.  JavaScript truthiness makes an empty `currentKey`
string falsy, hence the `k ≠ []` guard. -/
def rDescend (cur : RSchema) (fr : RFrame) : Option RSchema :=
  if !fr.isObject && cur.type = some "array".toList && cur.items.isSome then
    cur.items
  else if fr.isObject && !cur.properties.isEmpty then
    match fr.currentKey with
    | some k => if k ≠ [] then rLookup k cur.properties else none
    | none => none
  else none

/-- Walk the schema from the root along the given root-first list of ancestor
frames (the loop body for `i < stackIndex`). -/
def rWalk : Option RSchema → List RFrame → Option RSchema
  | cur, [] => cur
  | none, _ :: _ => none
  | some cur, fr :: frs => rWalk (rDescend cur fr) frs

/-- `getMissingRequiredKeys` (`src/docs/ref.ts`, lines 182–226) for the frame
`target` whose rootward ancestors (root first) are `ancestors`: resolve the
governing sub-schema and, when it has `type: "object"` and a `required` list,
return the required names not in `keysSeen`. -/
def refMissing (schema : Option RSchema) (ancestors : List RFrame) (target : RFrame) :
    List (List Char) :=
  match schema with
  | none => []
  | some root =>
    match rWalk (some root) ancestors with
    | none => []
    | some cur =>
      if cur.type = some "object".toList then
        match cur.required with
        | some reqs => reqs.filter (fun r => !target.keysSeen.contains r)
        | none => []
      else []

/-- `", "`-free compact join: `missing.map(k => ...).join(',')`. -/
def joinComma : List (List Char) → List Char
  | [] => []
  | [x] => x
  | x :: xs => x ++ ',' :: joinComma xs

/-- The injection text synthesized for one object frame during `finish`
(`src/docs/ref.ts`, lines 99–114): the missing required keys as `"k":null`
entries joined by commas, preceded by a comma when the frame has seen keys. -/
def refInjection (schema : Option RSchema) (f : RFrame) (rest : List RFrame) : List Char :=
  if f.isObject && schema.isSome then
    let missing := refMissing schema rest.reverse f
    if missing ≠ [] then
      (if f.keysSeen ≠ [] then [','] else []) ++
        joinComma (missing.map (fun k => '"' :: (k ++ '"' :: ':' :: "null".toList)))
    else []
  else []

/-- The stack walk of `finish` (innermost frame first): injection then closer,
for every frame. -/
def refCloseStack (schema : Option RSchema) : List RFrame → List Char
  | [] => []
  | f :: rest => refInjection schema f rest ++ f.char :: refCloseStack schema rest

/-- `StreamHealer.finish` (`src/docs/ref.ts`, lines 79–120). -/
def refFinish (schema : Option RSchema) (st : RState) : List Char :=
  if !st.hasStartedJson && st.buffer = [] then []
  else if !st.hasStartedJson then st.buffer
  else
    let stack :=
      if st.inString then
        match st.stack with
        | top :: rest =>
          if top.isObject then
            { top with keysSeen := insertKey st.pendingKeyBuffer top.keysSeen } :: rest
          else st.stack
        | [] => st.stack
      else st.stack
    (if st.inString then ['"'] else []) ++ refCloseStack schema stack

/-- Process a single chunk from a fresh healer and finish: the concatenated
healed output. -/
def refHeal (schema : Option RSchema) (x : List Char) : List Char :=
  let p := refProcess rInit x
  p.2 ++ refFinish schema p.1

/-- A JSON value, used for schema `default` values (numbers are modelled as
integers, which covers every default exercised by the repository: `42`,
strings, booleans, `null`, nested arrays/objects). -/
inductive JVal : Type where
  | jnull : JVal
  | jbool : Bool → JVal
  | jnum : Int → JVal
  | jstr : List Char → JVal
  | jarr : List JVal → JVal
  | jobj : List (List Char × JVal) → JVal

mutual

/-- Compact JSON serialization of a default value (`JSON.stringify`): no
whitespace, `"k":v` members.  String contents are emitted verbatim (the
defaults exercised by the spec and tests contain no characters needing
escapes). -/
def serialize : JVal → List Char
  | .jnull => "null".toList
  | .jbool true => "true".toList
  | .jbool false => "false".toList
  | .jnum n => (toString n).toList
  | .jstr s => '"' :: (s ++ ['"'])
  | .jarr xs => lbrack :: (serializeArr xs ++ [rbrack])
  | .jobj fs => lbrace :: (serializeObj fs ++ [rbrace])

/-- Serialize array elements joined by commas. -/
def serializeArr : List JVal → List Char
  | [] => []
  | [x] => serialize x
  | x :: xs => serialize x ++ ',' :: serializeArr xs

/-- Serialize object members joined by commas. -/
def serializeObj : List (List Char × JVal) → List Char
  | [] => []
  | [p] => '"' :: (p.1 ++ '"' :: ':' :: serialize p.2)
  | p :: ps => ('"' :: (p.1 ++ '"' :: ':' :: serialize p.2)) ++ ',' :: serializeObj ps

end

/-- Modelled from the spec: the `JsonSchema` interface of the missing
`src/healer.ts` (it is re-exported by `src/index.ts`, exercised by
`tests/ref_resolution.test.ts`, and documented in the README and §6 of the
spec): `type`, `properties`, `required`, `items`, `default`, `$ref`, and the
three `$ref` pools `definitions`, `$defs`, `components.schemas`. -/
inductive SSchema : Type where
  | mk : Option (List Char) → List (List Char × SSchema) →
         Option (List (List Char)) → Option SSchema → Option JVal →
         Option (List Char) → List (List Char × SSchema) →
         List (List Char × SSchema) → List (List Char × SSchema) → SSchema

/-- `schema.type`. -/
def SSchema.type : SSchema → Option (List Char)
  | .mk t _ _ _ _ _ _ _ _ => t

/-- `schema.properties`. -/
def SSchema.properties : SSchema → List (List Char × SSchema)
  | .mk _ p _ _ _ _ _ _ _ => p

/-- `schema.required`. -/
def SSchema.required : SSchema → Option (List (List Char))
  | .mk _ _ r _ _ _ _ _ _ => r

/-- `schema.items`. -/
def SSchema.items : SSchema → Option SSchema
  | .mk _ _ _ i _ _ _ _ _ => i

/-- `schema.default`. -/
def SSchema.dflt : SSchema → Option JVal
  | .mk _ _ _ _ d _ _ _ _ => d

/-- `schema.$ref`. -/
def SSchema.ref : SSchema → Option (List Char)
  | .mk _ _ _ _ _ r _ _ _ => r

/-- `schema.definitions`. -/
def SSchema.definitions : SSchema → List (List Char × SSchema)
  | .mk _ _ _ _ _ _ d _ _ => d

/-- `schema.$defs`. -/
def SSchema.defs : SSchema → List (List Char × SSchema)
  | .mk _ _ _ _ _ _ _ d _ => d

/-- `schema.components.schemas`. -/
def SSchema.componentsSchemas : SSchema → List (List Char × SSchema)
  | .mk _ _ _ _ _ _ _ _ c => c

/-- Name lookup in a schema pool / `properties` map. -/
def sLookup (k : List Char) : List (List Char × SSchema) → Option SSchema
  | [] => none
  | p :: ps => if p.1 = k then some p.2 else sLookup k ps

/-- Split a character list on `/` (for `$ref` pointers). -/
def splitSlash : List Char → List (List Char)
  | [] => [[]]
  | c :: cs =>
    if c = '/' then [] :: splitSlash cs
    else match splitSlash cs with
      | x :: xs => (c :: x) :: xs
      | [] => [[c]]

/-- Modelled from the spec (§4.2): one `$ref` pointer lookup.  The pointer
must have the form `#/<pool>/<name>` with `<pool>` drawn from `definitions`,
`$defs`, or `components/schemas`; anything else is *unknown* (`none`). -/
def sResolvePtr (root : SSchema) (ptr : List Char) : Option SSchema :=
  match splitSlash ptr with
  | [h, seg, name] =>
    if h = "#".toList then
      if seg = "definitions".toList then sLookup name root.definitions
      else if seg = "$defs".toList then sLookup name root.defs
      else none
    else none
  | [h, seg1, seg2, name] =>
    if h = "#".toList && seg1 = "components".toList && seg2 = "schemas".toList then
      sLookup name root.componentsSchemas
    else none
  | _ => none

/-- Modelled from the spec (§4.2): resolve a node through its `$ref` chain,
lazily and repeatedly, up to the given fuel (spec: bounded depth, e.g. 32, to
defend against cycles); an unresolvable or too-deep chain is *unknown*. -/
def sResolveChain (root : SSchema) : Nat → SSchema → Option SSchema
  | 0, s => match s.ref with
    | none => some s
    | some _ => none
  | fuel + 1, s => match s.ref with
    | none => some s
    | some ptr => match sResolvePtr root ptr with
      | none => none
      | some t => sResolveChain root fuel t

/-- The `$ref`-chain bound of §9 ("bounded (32 hops)"). -/
def REF_FUEL : Nat := 32

/-- Modelled from the spec (§3 "Stack frame"): a frame of the missing
`src/healer.ts` scanner — closer, object flag, keys seen, current key, and
`has_content` (true once any value or key has appeared in the frame). -/
structure SFrame where
  closer : Char
  isObject : Bool
  keysSeen : List (List Char)
  currentKey : Option (List Char)
  hasContent : Bool
  deriving Repr, DecidableEq

/-- Modelled from the spec (§3 "Healer state"). -/
structure SState where
  preamble : List Char
  started : Bool
  inString : Bool
  escapeNext : Bool
  pendingKey : List Char
  stack : List SFrame
  deriving Repr, DecidableEq

/-- A fresh spec-healer state. -/
def sInit : SState :=
  { preamble := [], started := false, inString := false, escapeNext := false,
    pendingKey := [], stack := [] }

/-- JSON insignificant whitespace. -/
def isWs (c : Char) : Bool := c = ' ' || c = '\t' || c = '\n' || c = '\r'

/-- Set `has_content` on the innermost frame, if any. -/
def markContent : List SFrame → List SFrame
  | [] => []
  | f :: r => { f with hasContent := true } :: r

/-- A fresh spec object frame. -/
def sObjFrame : SFrame :=
  { closer := rbrace, isObject := true, keysSeen := [], currentKey := none, hasContent := false }

/-- A fresh spec array frame. -/
def sArrFrame : SFrame :=
  { closer := rbrack, isObject := false, keysSeen := [], currentKey := none, hasContent := false }

/-- Modelled from the spec (§4.1.2 "Structural scanner"): one character of the
missing `src/healer.ts` scanner, including the `has_content` marking. -/
def specStep (st : SState) (c : Char) : SState :=
  if st.inString then
    if st.escapeNext then { st with escapeNext := false }
    else if c = '\\' then { st with escapeNext := true }
    else if c = '"' then
      match st.stack with
      | top :: rest =>
        if top.isObject && top.currentKey = none then
          let top' := { top with currentKey := some st.pendingKey,
                                 keysSeen := insertKey st.pendingKey top.keysSeen }
          { st with inString := false, stack := top' :: rest }
        else { st with inString := false }
      | [] => { st with inString := false }
    else
      match st.stack with
      | top :: _ =>
        if top.isObject && top.currentKey = none then
          { st with pendingKey := st.pendingKey ++ [c] }
        else st
      | [] => st
  else
    if c = '"' then { st with inString := true, pendingKey := [], stack := markContent st.stack }
    else if c = lbrace then { st with stack := sObjFrame :: markContent st.stack }
    else if c = lbrack then { st with stack := sArrFrame :: markContent st.stack }
    else if c = rbrace || c = rbrack then
      match st.stack with
      | top :: rest => if top.closer = c then { st with stack := rest } else st
      | [] => st
    else if c = ',' then
      match st.stack with
      | top :: rest =>
        if top.isObject then { st with stack := { top with currentKey := none } :: rest } else st
      | [] => st
    else if c = ':' then st
    else if isWs c then st
    else { st with stack := markContent st.stack }

/-- The spec scanner over a whole text. -/
def specScan (st : SState) (text : List Char) : SState := text.foldl specStep st

/-- Modelled from the spec (§4.2 "Schema Resolver"): from `cur`, resolve the
`$ref` chain, then descend along the given root-first ancestor frames
(`items` for array frames, `properties[current_key]` for object frames);
with no frames left, the resolved node governs the target frame. -/
def specResolveFor (root : SSchema) : SSchema → List SFrame → Option SSchema
  | cur, frames =>
    match sResolveChain root REF_FUEL cur with
    | none => none
    | some cur' =>
      match frames with
      | [] => some cur'
      | fr :: rest =>
        if !fr.isObject then
          match cur'.items with
          | some it => specResolveFor root it rest
          | none => none
        else
          match fr.currentKey with
          | some k =>
            match sLookup k cur'.properties with
            | some nxt => specResolveFor root nxt rest
            | none => none
          | none => none

/-- Modelled from the spec (§4.2 "Default-value extraction"): the injected
text for a required key `k` missing from a frame governed by `S` —
`S.properties[k].default` resolved through any `$ref` and serialized as
compact JSON, else the literal `null`. -/
def specValueFor (root S : SSchema) (k : List Char) : List Char :=
  match sLookup k S.properties with
  | none => "null".toList
  | some ps =>
    match sResolveChain root REF_FUEL ps with
    | none => "null".toList
    | some ps' =>
      match ps'.dflt with
      | some v => serialize v
      | none => "null".toList

/-- Modelled from the spec (§4.1.3 step 3): the injection for one object frame
`f` whose deeper (rootward) frames are `rest`: missing = required minus
keys_seen in required order, each rendered `"k":v`, comma-joined, with a
leading comma when the frame has content. -/
def specInjection (root : SSchema) (f : SFrame) (rest : List SFrame) : List Char :=
  if f.isObject then
    match specResolveFor root root rest.reverse with
    | none => []
    | some S =>
      match S.required with
      | none => []
      | some reqs =>
        let missing := reqs.filter (fun r => !f.keysSeen.contains r)
        if missing = [] then []
        else
          (if f.hasContent then [','] else []) ++
            joinComma (missing.map (fun k => '"' :: (k ++ '"' :: ':' :: specValueFor root S k)))
  else []

/-- Modelled from the spec (§4.1.3): the stack walk of `finish`, innermost
frame first: injection (when a schema is configured) then the closer. -/
def specCloseStack (sch : Option SSchema) : List SFrame → List Char
  | [] => []
  | f :: rest =>
    (match sch with
     | some root => specInjection root f rest
     | none => []) ++ f.closer :: specCloseStack sch rest

/-- Modelled from the spec (§4.1.3 "Tail synthesis"): `finish` of the missing
`src/healer.ts`. -/
def specFinish (sch : Option SSchema) (st : SState) : List Char :=
  if !st.started && st.preamble = [] then []
  else if !st.started then st.preamble
  else
    let stack :=
      if st.inString then
        match st.stack with
        | top :: rest =>
          if top.isObject && top.currentKey = none then
            { top with keysSeen := insertKey st.pendingKey top.keysSeen } :: rest
          else st.stack
        | [] => st.stack
      else st.stack
    (if st.inString then ['"'] else []) ++ specCloseStack sch stack

/-- Modelled from the spec (§4.1.1 "Preamble stripping"): `process` of the
missing `src/healer.ts` (identical flow to `src/docs/ref.ts`). -/
def specProcess (st : SState) (chunk : List Char) : SState × List Char :=
  if st.started then (specScan st chunk, chunk)
  else
    let b := st.preamble ++ chunk
    match splitAtOpener b with
    | some pr =>
      (specScan { st with preamble := [], started := true } pr.2, pr.2)
    | none =>
      if MAX_PREAMBLE < b.length then
        (specScan { st with preamble := [], started := true } b, b)
      else ({ st with preamble := b }, [])

/-- One-chunk heal with the spec-modelled healer. -/
def specHeal (sch : Option SSchema) (x : List Char) : List Char :=
  let p := specProcess sInit x
  p.2 ++ specFinish sch p.1


/-- The structural shape of a frame: its closer character and object flag. -/
def frameShape (f : RFrame) : Char × Bool := (f.char, f.isObject)

-- concrete schemas for the scenarios
def c3User : SSchema := .mk none [] (some ["name".toList, "id".toList]) none none none [] [] []

/-- The schema of claim C3 (spec §8 row 5): `user` is a `$ref` to
`#/definitions/User`, whose `required` is `[name, id]`. -/
def c3Schema : SSchema :=
  .mk none [("user".toList, .mk none [] none none none (some "#/definitions/User".toList) [] [] [])]
     (some ["user".toList]) none none none [("User".toList, c3User)] [] []

/-- The schema of spec §8 row 3: required `[a,b,c]` with defaults for `b`, `c`. -/
def row3Schema : SSchema :=
  .mk none
    [("b".toList, .mk none [] none none (some (.jstr "x".toList)) none [] [] []),
     ("c".toList, .mk none [] none none (some (.jnum 42)) none [] [] [])]
    (some ["a".toList, "b".toList, "c".toList]) none none none [] [] []

def row6Cfg : SSchema :=
  .mk none [("mode".toList, .mk none [] none none (some (.jstr "dark".toList)) none [] [] [])]
    (some ["mode".toList]) none none none [] [] []

/-- The schema of spec §8 row 6: `config` is a `$ref` to a definition whose
required `mode` has default `"dark"`. -/
def row6Schema : SSchema :=
  .mk none
    [("config".toList, .mk none [] none none none (some "#/definitions/Cfg".toList) [] [] [])]
    (some ["config".toList]) none none none [("Cfg".toList, row6Cfg)] [] []

/-- The closer characters of the healer's stack, innermost first. -/
def stackChars (st : RState) : List Char := st.stack.map RFrame.char

/-- A key is clean when it contains no quote and no backslash. -/
def keyClean (k : List Char) : Bool := k.all (fun c => !(c = '"' || c = '\\'))

mutual

def cleanReq : RSchema → Bool
  | .mk _ props req items =>
    (match req with
     | none => true
     | some rs => rs.all keyClean) &&
    cleanProps props &&
    (match items with
     | none => true
     | some s => cleanReq s)

def cleanProps : List (List Char × RSchema) → Bool
  | [] => true
  | p :: ps => cleanReq p.2 && cleanProps ps

end

/-- A schema (or no schema) all of whose `required` names are clean. -/
def schemaClean : Option RSchema → Bool
  | none => true
  | some r => cleanReq r

/-- Every frame on the stack closes with `}` or `]` (holds for all reachable states). -/
def stackClosers (st : RState) : Prop := ∀ f ∈ st.stack, isCloser f.char = true

/-- An open JSON container, for the validity checker. -/
inductive JCtx : Type where
  | obj : JCtx
  | arr : JCtx
  deriving Repr, DecidableEq

/-- The closing character of a container. -/
def closerOf : JCtx → Char
  | .obj => rbrace
  | .arr => rbrack

/-- The mode of the character-level JSON validity checker: what the grammar
expects next.  `strV`/`strK` are inside a value/key string, `escV`/`escK` after
a backslash, `uV n`/`uK n` inside a `\uXXXX` escape with `n` hex digits left,
the `num*` modes track the RFC 8259 number grammar, `lit` consumes the tail of
`true`/`false`/`null`, and `reject` is the absorbing error mode. -/
inductive JMode : Type where
  | expVal | arrFirst | objFirst | expKey | afterKey | afterVal
  | strV | escV | uV (n : Nat) | strK | escK | uK (n : Nat)
  | numSign | numZero | numInt | numFracStart | numFrac
  | numExpSign | numExpD0 | numExp
  | lit (rem : List Char)
  | reject
  deriving Repr, DecidableEq

/-- A configuration of the JSON validity checker: mode plus container stack. -/
structure JCfg where
  mode : JMode
  stack : List JCtx
  deriving Repr, DecidableEq

/-- The absorbing rejected configuration. -/
def jReject : JCfg := ⟨.reject, []⟩

/-- Hexadecimal digit (for `\uXXXX` escapes). -/
def jHex (c : Char) : Bool :=
  c.isDigit || ('a' ≤ c && c ≤ 'f') || ('A' ≤ c && c ≤ 'F')

/-- Dispatch on the first character of a JSON value; `none` means invalid. -/
def valStart (stack : List JCtx) (c : Char) : Option JCfg :=
  if c = lbrace then some ⟨.objFirst, .obj :: stack⟩
  else if c = lbrack then some ⟨.arrFirst, .arr :: stack⟩
  else if c = '"' then some ⟨.strV, stack⟩
  else if c = 't' then some ⟨.lit "rue".toList, stack⟩
  else if c = 'f' then some ⟨.lit "alse".toList, stack⟩
  else if c = 'n' then some ⟨.lit "ull".toList, stack⟩
  else if c = '-' then some ⟨.numSign, stack⟩
  else if c = '0' then some ⟨.numZero, stack⟩
  else if c.isDigit then some ⟨.numInt, stack⟩
  else none

/-- After a complete value: whitespace, a separating comma, or the closer of
the enclosing container. -/
def afterValStep (stack : List JCtx) (c : Char) : JCfg :=
  if isWs c then ⟨.afterVal, stack⟩
  else
    match stack with
    | .obj :: rest =>
      if c = ',' then ⟨.expKey, .obj :: rest⟩
      else if c = rbrace then ⟨.afterVal, rest⟩
      else jReject
    | .arr :: rest =>
      if c = ',' then ⟨.expVal, .arr :: rest⟩
      else if c = rbrack then ⟨.afterVal, rest⟩
      else jReject
    | [] => jReject

/-- One character of the JSON validity checker (RFC 8259 grammar). -/
def jsonStep (cfg : JCfg) (c : Char) : JCfg :=
  match cfg.mode with
  | .reject => jReject
  | .expVal => if isWs c then cfg else (valStart cfg.stack c).getD jReject
  | .arrFirst =>
    if isWs c then cfg
    else if c = rbrack then
      match cfg.stack with
      | .arr :: rest => ⟨.afterVal, rest⟩
      | _ => jReject
    else (valStart cfg.stack c).getD jReject
  | .objFirst =>
    if isWs c then cfg
    else if c = '"' then ⟨.strK, cfg.stack⟩
    else if c = rbrace then
      match cfg.stack with
      | .obj :: rest => ⟨.afterVal, rest⟩
      | _ => jReject
    else jReject
  | .expKey =>
    if isWs c then cfg
    else if c = '"' then ⟨.strK, cfg.stack⟩
    else jReject
  | .afterKey =>
    if isWs c then cfg
    else if c = ':' then ⟨.expVal, cfg.stack⟩
    else jReject
  | .afterVal => afterValStep cfg.stack c
  | .strV =>
    if c = '"' then ⟨.afterVal, cfg.stack⟩
    else if c = '\\' then ⟨.escV, cfg.stack⟩
    else if c.toNat < 32 then jReject
    else ⟨.strV, cfg.stack⟩
  | .escV =>
    if c = '"' || c = '\\' || c = '/' || c = 'b' || c = 'f' || c = 'n' || c = 'r' || c = 't' then
      ⟨.strV, cfg.stack⟩
    else if c = 'u' then ⟨.uV 4, cfg.stack⟩
    else jReject
  | .uV n =>
    if jHex c then (if n ≤ 1 then ⟨.strV, cfg.stack⟩ else ⟨.uV (n - 1), cfg.stack⟩)
    else jReject
  | .strK =>
    if c = '"' then ⟨.afterKey, cfg.stack⟩
    else if c = '\\' then ⟨.escK, cfg.stack⟩
    else if c.toNat < 32 then jReject
    else ⟨.strK, cfg.stack⟩
  | .escK =>
    if c = '"' || c = '\\' || c = '/' || c = 'b' || c = 'f' || c = 'n' || c = 'r' || c = 't' then
      ⟨.strK, cfg.stack⟩
    else if c = 'u' then ⟨.uK 4, cfg.stack⟩
    else jReject
  | .uK n =>
    if jHex c then (if n ≤ 1 then ⟨.strK, cfg.stack⟩ else ⟨.uK (n - 1), cfg.stack⟩)
    else jReject
  | .numSign =>
    if c = '0' then ⟨.numZero, cfg.stack⟩
    else if c.isDigit then ⟨.numInt, cfg.stack⟩
    else jReject
  | .numZero =>
    if c = '.' then ⟨.numFracStart, cfg.stack⟩
    else if c = 'e' || c = 'E' then ⟨.numExpSign, cfg.stack⟩
    else afterValStep cfg.stack c
  | .numInt =>
    if c.isDigit then ⟨.numInt, cfg.stack⟩
    else if c = '.' then ⟨.numFracStart, cfg.stack⟩
    else if c = 'e' || c = 'E' then ⟨.numExpSign, cfg.stack⟩
    else afterValStep cfg.stack c
  | .numFracStart =>
    if c.isDigit then ⟨.numFrac, cfg.stack⟩ else jReject
  | .numFrac =>
    if c.isDigit then ⟨.numFrac, cfg.stack⟩
    else if c = 'e' || c = 'E' then ⟨.numExpSign, cfg.stack⟩
    else afterValStep cfg.stack c
  | .numExpSign =>
    if c = '+' || c = '-' then ⟨.numExpD0, cfg.stack⟩
    else if c.isDigit then ⟨.numExp, cfg.stack⟩
    else jReject
  | .numExpD0 =>
    if c.isDigit then ⟨.numExp, cfg.stack⟩ else jReject
  | .numExp =>
    if c.isDigit then ⟨.numExp, cfg.stack⟩ else afterValStep cfg.stack c
  | .lit rem =>
    match rem with
    | [] => jReject
    | d :: rest =>
      if c = d then (if rest.isEmpty then ⟨.afterVal, cfg.stack⟩ else ⟨.lit rest, cfg.stack⟩)
      else jReject

/-- The initial checker configuration: expecting one top-level value. -/
def jInit : JCfg := ⟨.expVal, []⟩

/-- Run the checker over a character list. -/
def jRun (cfg : JCfg) (cs : List Char) : JCfg := cs.foldl jsonStep cfg

/-- Modes in which the input may legally end (a complete value just ended,
or a number that is complete as written). -/
def acceptMode : JMode → Bool
  | .afterVal | .numZero | .numInt | .numFrac | .numExp => true
  | _ => false

/-- JSON validity: the checker accepts with an empty container stack. -/
def jsonOk (cs : List Char) : Bool :=
  acceptMode (jRun jInit cs).mode && (jRun jInit cs).stack.isEmpty

/-- Modes from which appending the healer's tail (an optional closing quote
followed by the closers of all open containers) yields a valid document:
not awaiting a value or key, not mid-literal, mid-number-fraction/exponent,
mid-escape, or inside a key string. -/
def closableMode : JMode → Bool
  | .afterVal | .objFirst | .arrFirst | .strV
  | .numZero | .numInt | .numFrac | .numExp => true
  | _ => false

/-- Modes that are inside a string literal. -/
def strMode : JMode → Bool
  | .strV | .strK | .escV | .escK | .uV _ | .uK _ => true
  | _ => false

/-- Modes that sit between a backslash and the escaped character. -/
def escMode : JMode → Bool
  | .escV | .escK => true
  | _ => false

/-- Characters occurring in the tails of `true`, `false`, `null`. -/
def litChar (c : Char) : Bool :=
  c = 'r' || c = 'u' || c = 'e' || c = 'a' || c = 'l' || c = 's'

/-- Well-formedness of reachable checker configurations: `objFirst`/`arrFirst`
sit on a matching container, and `lit` tails consist of literal characters. -/
def jWF (cfg : JCfg) : Prop :=
  (cfg.mode = .objFirst → ∃ rest, cfg.stack = .obj :: rest) ∧
  (cfg.mode = .arrFirst → ∃ rest, cfg.stack = .arr :: rest) ∧
  (∀ rem, cfg.mode = .lit rem → rem.all litChar = true)

/-- The simulation relation between the healer's scanner and the validity
checker: equal stacks of closers, and agreeing string/escape flags. -/
def relScan (st : RState) (cfg : JCfg) : Prop :=
  stackChars st = cfg.stack.map closerOf ∧
  st.inString = strMode cfg.mode ∧
  st.isEscaped = escMode cfg.mode

theorem splitAtOpener_eq_some {b pre rest : List Char} (h : splitAtOpener b = some (pre, rest)) :
    b = pre ++ rest ∧ (∀ c ∈ pre, isOpener c = false) ∧
      ∃ d ds, rest = d :: ds ∧ isOpener d = true := by
  induction b generalizing pre rest with
  | nil => simp [splitAtOpener] at h
  | cons c cs ih =>
    rcases hc : isOpener c with _ | _
    · have h' : (splitAtOpener cs).map (fun pr => (c :: pr.1, pr.2)) = some (pre, rest) := by
        simpa [splitAtOpener, hc] using h
      obtain ⟨⟨p', r'⟩, hsp, hpr⟩ := Option.map_eq_some'.mp h'
      obtain ⟨hb, hfree, d, ds, hr, hd⟩ := ih hsp
      simp only [Prod.mk.injEq] at hpr
      obtain ⟨hpre, hrest⟩ := hpr
      subst hpre hrest
      refine ⟨by simp [hb], ?_, d, ds, hr, hd⟩
      intro x hx
      rcases List.mem_cons.mp hx with rfl | hx
      · exact hc
      · exact hfree x hx
    · have h' : some ([], c :: cs) = some (pre, rest) := by
        simpa [splitAtOpener, hc] using h
      simp only [Option.some.injEq, Prod.mk.injEq] at h'
      obtain ⟨hpre, hrest⟩ := h'
      subst hpre hrest
      exact ⟨by simp, by simp, c, cs, rfl, hc⟩

theorem splitAtOpener_eq_none {b : List Char} (h : splitAtOpener b = none) :
    ∀ c ∈ b, isOpener c = false := by
  induction b with
  | nil => simp
  | cons c cs ih =>
    rcases hc : isOpener c with _ | _
    · have h' : (splitAtOpener cs).map (fun pr => (c :: pr.1, pr.2)) = none := by
        simpa [splitAtOpener, hc] using h
      intro x hx
      rcases List.mem_cons.mp hx with rfl | hx
      · exact hc
      · exact ih (Option.map_eq_none'.mp h') x hx
    · simp [splitAtOpener, hc] at h

theorem refStep_hasStarted (s : RState) (c : Char) :
    (refStep s c).hasStartedJson = s.hasStartedJson := by
  unfold refStep
  split
  · split
    · rfl
    · split
      · rfl
      · split
        · split <;> [skip; rfl] <;> split <;> rfl
        · split <;> [skip; rfl] <;> split <;> rfl
  · split
    · rfl
    · split
      · rfl
      · split
        · split <;> [skip; rfl] <;> split <;> rfl
        · split
          · rfl
          · split
            · rfl
            · split
              · split <;> [skip; rfl] <;> split <;> rfl
              · rfl

theorem refScan_hasStarted (t : List Char) (s : RState) :
    (refScan s t).hasStartedJson = s.hasStartedJson := by
  induction t generalizing s with
  | nil => rfl
  | cons a t ih =>
    show (List.foldl refStep (refStep s a) t).hasStartedJson = s.hasStartedJson
    rw [show List.foldl refStep (refStep s a) t = refScan (refStep s a) t from rfl,
        ih, refStep_hasStarted]

theorem refProcess_phase1_some {st : RState} {chunk pre rest : List Char}
    (h : st.hasStartedJson = false)
    (hsp : splitAtOpener (st.buffer ++ chunk) = some (pre, rest)) :
    refProcess st chunk =
      (refScan { st with buffer := [], hasStartedJson := true } rest, rest) := by
  unfold refProcess
  simp only [h, Bool.false_eq_true, if_false, hsp]

theorem refProcess_phase1_none_big {st : RState} {chunk : List Char}
    (h : st.hasStartedJson = false)
    (hsp : splitAtOpener (st.buffer ++ chunk) = none)
    (hlen : MAX_PREAMBLE < (st.buffer ++ chunk).length) :
    refProcess st chunk =
      (refScan { st with buffer := [], hasStartedJson := true } (st.buffer ++ chunk),
       st.buffer ++ chunk) := by
  unfold refProcess
  simp only [h, Bool.false_eq_true, if_false, hsp, if_pos hlen]

theorem refProcess_phase1_none_small {st : RState} {chunk : List Char}
    (h : st.hasStartedJson = false)
    (hsp : splitAtOpener (st.buffer ++ chunk) = none)
    (hlen : (st.buffer ++ chunk).length ≤ MAX_PREAMBLE) :
    refProcess st chunk = ({ st with buffer := st.buffer ++ chunk }, []) := by
  unfold refProcess
  have hx : ¬ MAX_PREAMBLE < (st.buffer ++ chunk).length := by omega
  simp only [h, Bool.false_eq_true, if_false, hsp, if_neg hx]

/-- C10: once the healer has started, every `process(chunk)` returns exactly
its argument, whatever the chunk's content. -/
theorem C10_passthrough (st : RState) (chunk : List Char)
    (h : st.hasStartedJson = true) : (refProcess st chunk).2 = chunk := by
  simp [refProcess, h]

theorem C10_passthrough_witness :
    (refProcess ((refProcess rInit "\x7bxx".toList).1) "not json ][ \x7d,:\"".toList).2
      = "not json ][ \x7d,:\"".toList :=
  C10_passthrough _ _ (by decide)

/-- Claim C5: before JSON has started, `process` buffers input and (a) when a
`{` or `[` first appears at buffer index `i`, discards the bytes before `i`,
marks started, and returns exactly the bytes from `i` to the end of the buffer;
(b) otherwise, when the buffer exceeds 500 characters, flushes and returns the
entire buffer verbatim (and, being started, forwards all subsequent chunks
verbatim); (c) otherwise returns the empty string. -/
theorem C5_preamble_stripping (st : RState) (chunk : List Char)
    (h : st.hasStartedJson = false) :
    (∀ pre rest, splitAtOpener (st.buffer ++ chunk) = some (pre, rest) →
      (refProcess st chunk).2 = rest ∧ (refProcess st chunk).1.hasStartedJson = true ∧
      st.buffer ++ chunk = pre ++ rest ∧ (∀ c ∈ pre, isOpener c = false) ∧
      (∃ d ds, rest = d :: ds ∧ isOpener d = true)) ∧
    (splitAtOpener (st.buffer ++ chunk) = none →
      (MAX_PREAMBLE < (st.buffer ++ chunk).length →
        (refProcess st chunk).2 = st.buffer ++ chunk ∧
        (refProcess st chunk).1.hasStartedJson = true) ∧
      ((st.buffer ++ chunk).length ≤ MAX_PREAMBLE →
        (refProcess st chunk).2 = [] ∧
        (refProcess st chunk).1 = { st with buffer := st.buffer ++ chunk })) ∧
    (∀ st' ch, st'.hasStartedJson = true → (refProcess st' ch).2 = ch) := by
  refine ⟨?_, ?_, ?_⟩
  · intro pre rest hsp
    obtain ⟨hb, hfree, hd⟩ := splitAtOpener_eq_some hsp
    rw [refProcess_phase1_some h hsp]
    exact ⟨rfl, by rw [refScan_hasStarted], hb, hfree, hd⟩
  · intro hsp
    refine ⟨fun hlen => ?_, fun hlen => ?_⟩
    · rw [refProcess_phase1_none_big h hsp hlen]
      exact ⟨rfl, by rw [refScan_hasStarted]⟩
    · rw [refProcess_phase1_none_small h hsp hlen]
      exact ⟨rfl, rfl⟩
  · intro st' ch h'
    simp [refProcess, h']

set_option maxRecDepth 4000 in
theorem C5_preamble_stripping_witness :
    (refProcess rInit "hi \x7b\"k\"".toList).2 = "\x7b\"k\"".toList ∧
    (refProcess rInit (List.replicate 501 'a')).2 = List.replicate 501 'a' ∧
    (refProcess rInit "no opener yet".toList).2 = [] :=
  ⟨((C5_preamble_stripping rInit "hi \x7b\"k\"".toList rfl).1 "hi ".toList "\x7b\"k\"".toList
      (by decide)).1,
   (((C5_preamble_stripping rInit (List.replicate 501 'a') rfl).2.1
      (by decide)).1 (by decide)).1,
   (((C5_preamble_stripping rInit "no opener yet".toList rfl).2.1
      (by decide)).2 (by decide)).1⟩

/-- Claim C6: outside strings the stack evolves only as follows: `{` pushes an
object frame, `[` pushes an array frame, `}`/`]` pops the innermost frame iff
its closer equals the character, a mismatched closer leaves the healer state
unchanged, and every other character leaves the stack of containers (closer
characters and object flags) unchanged. -/
theorem C6_stack_discipline (st : RState) (c : Char) (h : st.inString = false) :
    (c = lbrace → (refStep st c).stack = objFrame :: st.stack) ∧
    (c = lbrack → (refStep st c).stack = arrFrame :: st.stack) ∧
    (isCloser c = true →
      (∀ top rest, st.stack = top :: rest →
        (top.char = c → (refStep st c).stack = rest) ∧
        (top.char ≠ c → refStep st c = st)) ∧
      (st.stack = [] → refStep st c = st)) ∧
    (isOpener c = false → isCloser c = false →
      ((refStep st c).stack).map frameShape = st.stack.map frameShape) := by
  refine ⟨?_, ?_, ?_, ?_⟩
  · rintro rfl
    simp +decide [refStep, h]
  · rintro rfl
    simp +decide [refStep, h]
  · intro hc
    have h1 : c = rbrace ∨ c = rbrack := by
      simp [isCloser, decide_eq_true_eq] at hc
      tauto
    constructor
    · intro top rest hs
      constructor
      · intro htop
        rcases h1 with rfl | rfl <;>
          simp +decide [refStep, h, hs, htop]
      · intro htop
        rcases h1 with rfl | rfl <;>
          simp +decide [refStep, h, hs, htop]
    · intro hs
      rcases h1 with rfl | rfl <;> simp +decide [refStep, h, hs]
  · intro ho hcl
    have hob : ¬ c = lbrace := fun hh => by simp [isOpener, hh] at ho
    have hok : ¬ c = lbrack := fun hh => by simp [isOpener, hh] at ho
    have hcb : ¬ c = rbrace := fun hh => by simp [isCloser, hh] at hcl
    have hck : ¬ c = rbrack := fun hh => by simp [isCloser, hh] at hcl
    by_cases hq : c = '"'
    · subst hq; simp +decide [refStep, h]
    by_cases hcol : c = ':'
    · subst hcol; simp +decide [refStep, h]
    by_cases hcom : c = ','
    · subst hcom
      rcases hs : st.stack with _ | ⟨top, rest⟩
      · simp +decide [refStep, h, hs]
      · by_cases hto : top.isObject = true <;>
          simp +decide [refStep, h, hs, hto, frameShape]
    · simp [refStep, h, hq, hcol, hcom, hob, hok, hcb, hck]

theorem C6_stack_discipline_witness :
    (refStep (refScan rInit "[".toList) lbrace).stack
        = objFrame :: (refScan rInit "[".toList).stack ∧
    refStep (refScan rInit "[".toList) rbrace = refScan rInit "[".toList :=
  ⟨(C6_stack_discipline _ lbrace (by decide)).1 rfl,
   (((C6_stack_discipline _ rbrace (by decide)).2.2.1 (by decide)).1 arrFrame []
      (by decide)).2 (by decide)⟩

/-- Claim C9 counterexample: after scanning `{"a` the healer is inside a
string and the innermost frame's `current_key` is `none`; processing the
closing quote — an in-string character — sets it to `a`, so an in-string step
does change a frame's `current_key`. -/
theorem C9_counterexample :
    (refScan rInit "\x7b\"a".toList).inString = true ∧
    ((refScan rInit "\x7b\"a".toList).stack.map RFrame.currentKey) = [none] ∧
    ((refStep (refScan rInit "\x7b\"a".toList) '"').stack.map RFrame.currentKey)
      = [some "a".toList] := by
  refine ⟨by decide, by decide, by decide⟩

/-- Claim C9 amended: while `in_string` is true, no frame is pushed or popped,
every frame except the innermost is unchanged, the innermost frame keeps its
close character and object flag, the whole stack is unchanged unless the
character is an unescaped quote, and even then only the innermost frame's
`current_key` and `keys_seen` may change. -/
theorem C9_in_string_stack (st : RState) (c : Char) (h : st.inString = true) :
    ((refStep st c).stack.map frameShape = st.stack.map frameShape) ∧
    ((refStep st c).stack.tail = st.stack.tail) ∧
    ((st.isEscaped = true ∨ c ≠ '"') → (refStep st c).stack = st.stack) ∧
    (∀ top rest, st.stack = top :: rest →
      (top.isObject = false ∨ top.currentKey ≠ none) → (refStep st c).stack = st.stack) ∧
    (∀ top rest, st.stack = top :: rest →
      ∃ ck ks, (refStep st c).stack = { top with currentKey := ck, keysSeen := ks } :: rest) := by
  by_cases hesc : st.isEscaped = true
  · simp [refStep, h, hesc]
    intro top rest hs
    exact ⟨top.currentKey, top.keysSeen, by rw [hs]⟩
  · have hesc' : st.isEscaped = false := by simpa using hesc
    by_cases hbs : c = '\\'
    · subst hbs
      simp +decide [refStep, h, hesc']
      intro top rest hs
      exact ⟨top.currentKey, top.keysSeen, by rw [hs]⟩
    · by_cases hq : c = '"'
      · subst hq
        rcases hs : st.stack with _ | ⟨top, rest⟩
        · simp +decide [refStep, h, hesc', hs]
        · by_cases hto : (top.isObject && top.currentKey = none) = true
          · refine ⟨?_, ?_, ?_, ?_, ?_⟩
            · simp +decide [refStep, h, hesc', hs, hto, frameShape]
            · simp +decide [refStep, h, hesc', hs, hto]
            · rintro (hcon | hcon)
              · exact absurd hcon (by simp [hesc'])
              · exact absurd rfl hcon
            · intro top' rest' hs' hcon
              obtain ⟨rfl, rfl⟩ := List.cons_eq_cons.mp hs'
              have h1 : top.isObject = true := (Bool.and_eq_true_iff.mp hto).1
              have h2 : top.currentKey = none := by
                simpa using (Bool.and_eq_true_iff.mp hto).2
              rcases hcon with hcon | hcon
              · rw [h1] at hcon; exact absurd hcon (by simp)
              · exact absurd h2 hcon
            · intro top' rest' hs'
              obtain ⟨rfl, rfl⟩ := List.cons_eq_cons.mp hs'
              refine ⟨some st.pendingKeyBuffer, insertKey st.pendingKeyBuffer top.keysSeen, ?_⟩
              simp +decide [refStep, h, hesc', hs, hto]
          · have hstack : (refStep st '"').stack = top :: rest := by
              simp +decide [refStep, h, hesc', hs, hto]
            refine ⟨by rw [hstack], by rw [hstack], fun _ => hstack, fun _ _ _ _ => hstack, ?_⟩
            intro top' rest' hs'
            obtain ⟨rfl, rfl⟩ := List.cons_eq_cons.mp hs'
            exact ⟨top.currentKey, top.keysSeen, by rw [hstack]⟩
      · have hstack : (refStep st c).stack = st.stack := by
          rcases hs : st.stack with _ | ⟨top, rest⟩
          · simp [refStep, h, hesc', hbs, hq, hs]
          · by_cases hto : (top.isObject && top.currentKey = none) = true <;>
              simp [refStep, h, hesc', hbs, hq, hs, hto]
        refine ⟨by rw [hstack], by rw [hstack], fun _ => hstack, fun _ _ _ _ => hstack, ?_⟩
        intro top rest hs
        exact ⟨top.currentKey, top.keysSeen, by rw [hstack, hs]⟩

theorem C9_in_string_stack_witness :
    (refStep (refScan rInit "\x7b\"a".toList) 'b').stack = (refScan rInit "\x7b\"a".toList).stack :=
  (C9_in_string_stack _ 'b' (by decide)).2.2.1 (Or.inr (by decide))

/-- Claim C4 counterexample: with the schema `{required:[a,b]}` of the claim —
no `type` field — and input `{"a":1`, `finish()` returns `}` and not
`,"b":null}`: `getMissingRequiredKeys` requires `type === "object"`. -/
theorem C4_counterexample :
    refFinish (some (RSchema.mk none [] (some ["a".toList, "b".toList]) none))
        (refProcess rInit "\x7b\"a\":1".toList).1 = "\x7d".toList ∧
    refFinish (some (RSchema.mk none [] (some ["a".toList, "b".toList]) none))
        (refProcess rInit "\x7b\"a\":1".toList).1 ≠ ",\"b\":null\x7d".toList := by
  refine ⟨by decide, by decide⟩

/-- Claim C4 amended: with the schema `{type:"object", required:[a,b]}` and
input `{"a":1`, `finish()` returns `,"b":null}`; in general, for a root
schema with `type: "object"`, the missing keys are `required` minus
`keys_seen` in `required`-list order, and a non-empty injection on a frame
with keys seen gets a leading comma. -/
theorem C4_required_injection :
    refFinish (some (RSchema.mk (some "object".toList) [] (some ["a".toList, "b".toList]) none))
        (refProcess rInit "\x7b\"a\":1".toList).1 = ",\"b\":null\x7d".toList ∧
    (∀ (props : List (List Char × RSchema))
        (reqs : List (List Char)) (it : Option RSchema) (f : RFrame),
        refMissing (some (RSchema.mk (some "object".toList) props (some reqs) it)) [] f
          = reqs.filter (fun r => !f.keysSeen.contains r)) ∧
    (∀ (sch : Option RSchema) (f : RFrame) (rest : List RFrame),
        f.isObject = true → sch.isSome = true →
        refMissing sch rest.reverse f ≠ [] → f.keysSeen ≠ [] →
        refInjection sch f rest =
          ',' :: joinComma ((refMissing sch rest.reverse f).map
            (fun k => '"' :: (k ++ '"' :: ':' :: "null".toList)))) := by
  refine ⟨by decide, ?_, ?_⟩
  · intro props reqs it f
    simp [refMissing, rWalk, RSchema.type, RSchema.required]
  · intro sch f rest hf hsch hmiss hseen
    simp [refInjection, hf, hsch, hmiss, hseen]

theorem C4_required_injection_witness :
    refMissing (some (RSchema.mk (some "object".toList) [] (some ["a".toList, "b".toList]) none))
        [] ((refProcess rInit "\x7b\"a\":1".toList).1.stack.headD objFrame)
      = ["b".toList] ∧
    refInjection (some (RSchema.mk (some "object".toList) [] (some ["a".toList, "b".toList]) none))
        ((refProcess rInit "\x7b\"a\":1".toList).1.stack.headD objFrame) []
      = ",\"b\":null".toList := by
  constructor
  · have := (C4_required_injection.2.1) []
      ["a".toList, "b".toList] none ((refProcess rInit "\x7b\"a\":1".toList).1.stack.headD objFrame)
    rw [this]; decide
  · have := (C4_required_injection.2.2)
      (some (RSchema.mk (some "object".toList) [] (some ["a".toList, "b".toList]) none))
      ((refProcess rInit "\x7b\"a\":1".toList).1.stack.headD objFrame) [] (by decide) (by decide)
      (by decide) (by decide)
    rw [this]; decide

/-- Claim C8: `process` and `finish` are total functions of the embedded state
(they are plain Lean functions), and unresolvable schema paths merely cause
the affected frame to be closed without injection: a frame whose schema walk
returns unknown contributes an empty injection, and when every frame is
unresolvable `finish`'s stack walk degenerates to the schema-less closers. -/
theorem C8_graceful_degradation :
    (∀ (root : RSchema) (f : RFrame) (rest : List RFrame),
        rWalk (some root) rest.reverse = none → refInjection (some root) f rest = []) ∧
    (∀ (root : RSchema) (stack : List RFrame),
        (∀ pre f rest, stack = pre ++ f :: rest → refMissing (some root) rest.reverse f = []) →
        refCloseStack (some root) stack = refCloseStack none stack) := by
  constructor
  · intro root f rest hw
    by_cases hf : f.isObject = true
    · simp [refInjection, refMissing, hw, hf]
    · simp [refInjection, hf]
  · intro root stack
    induction stack with
    | nil => intro _; rfl
    | cons f rest ih =>
      intro hyp
      have h0 : refMissing (some root) rest.reverse f = [] := hyp [] f rest rfl
      have h1 : refInjection (some root) f rest = [] := by
        by_cases hf : f.isObject = true
        · simp [refInjection, h0, hf]
        · simp [refInjection, hf]
      have h2 : refCloseStack (some root) rest = refCloseStack none rest := by
        refine ih ?_
        intro pre g rs hdec
        exact hyp (f :: pre) g rs (by rw [hdec]; rfl)
      show refInjection (some root) f rest ++ f.char :: refCloseStack (some root) rest
          = refInjection none f rest ++ f.char :: refCloseStack none rest
      rw [h1, h2]
      simp [refInjection]

theorem C8_graceful_degradation_witness :
    refInjection
      (some (RSchema.mk none [] (some ["x".toList]) none))
      objFrame [objFrame] = [] ∧
    refCloseStack
      (some (RSchema.mk none [] (some ["x".toList]) none))
      [objFrame, arrFrame]
      = refCloseStack none [objFrame, arrFrame] := by
  constructor
  · exact C8_graceful_degradation.1 _ objFrame [objFrame] (by rfl)
  · refine C8_graceful_degradation.2 _ [objFrame, arrFrame] ?_
    intro pre f rest h
    rcases pre with _ | ⟨a, pre⟩
    · obtain ⟨rfl, rfl⟩ : objFrame = f ∧ [arrFrame] = rest := by
        simpa using h
      decide
    · rcases pre with _ | ⟨b, pre⟩
      · obtain ⟨rfl, rfl, rfl⟩ : objFrame = a ∧ arrFrame = f ∧ ([] : List RFrame) = rest := by
          simpa using h
        decide
      · exfalso
        have := congrArg List.length h
        simp at this

theorem splitSlash_noSlash {x : List Char} (h : ∀ c ∈ x, c ≠ '/') : splitSlash x = [x] := by
  induction x with
  | nil => rfl
  | cons c cs ih =>
    have hc : ¬ c = '/' := h c (List.mem_cons_self c cs)
    have ih' := ih (fun d hd => h d (List.mem_cons_of_mem c hd))
    simp [splitSlash, hc, ih']

theorem splitSlash_append {x y : List Char} (h : ∀ c ∈ x, c ≠ '/') :
    splitSlash (x ++ '/' :: y) = x :: splitSlash y := by
  induction x with
  | nil => simp [splitSlash]
  | cons c cs ih =>
    have hc : ¬ c = '/' := h c (List.mem_cons_self c cs)
    have ih' := ih (fun d hd => h d (List.mem_cons_of_mem c hd))
    simp only [List.cons_append, splitSlash, hc, if_false, List.append_eq, ih']

theorem specValueFor_eq (root S : SSchema) (k : List Char) :
    specValueFor root S k =
      match (sLookup k S.properties).bind (sResolveChain root REF_FUEL) with
      | some ps => (ps.dflt.map serialize).getD "null".toList
      | none => "null".toList := by
  unfold specValueFor
  rcases hl : sLookup k S.properties with _ | ps
  · rfl
  · rcases hc : sResolveChain root REF_FUEL ps with _ | ps'
    · simp [hl, hc]
    · rcases hd : ps'.dflt with _ | v <;> simp [hl, hc, hd]

/-- Claim C3 (spec-modelled, `src/healer.ts` is absent from the snapshot): the
resolver follows fragment-local `$ref` pointers `#/<pool>/<name>` through the
pools `definitions`, `$defs` and `components/schemas`; in particular, for the
schema `{required:[user], properties:{user:{$ref:#/definitions/User}},
definitions:{User:{required:[name,id]}}}` and input `{"user":{"name":"A"`,
`finish()` returns `,"id":null}}`. -/
theorem C3_ref_pools :
    (∀ (root : SSchema) (name : List Char), (∀ c ∈ name, c ≠ '/') →
      sResolvePtr root ("#/definitions/".toList ++ name) = sLookup name root.definitions ∧
      sResolvePtr root ("#/$defs/".toList ++ name) = sLookup name root.defs ∧
      sResolvePtr root ("#/components/schemas/".toList ++ name)
        = sLookup name root.componentsSchemas) ∧
    specFinish (some c3Schema) (specProcess sInit "\x7b\"user\":\x7b\"name\":\"A\"".toList).1
      = ",\"id\":null\x7d\x7d".toList := by
  constructor
  · intro root name hn
    have hsplit1 : splitSlash ("#/definitions/".toList ++ name)
        = ["#".toList, "definitions".toList, name] := by
      have : ("#/definitions/".toList ++ name) =
          "#".toList ++ '/' :: ("definitions".toList ++ '/' :: name) := rfl
      rw [this, splitSlash_append (by decide),
          splitSlash_append (by decide), splitSlash_noSlash hn]
    have hsplit2 : splitSlash ("#/$defs/".toList ++ name)
        = ["#".toList, "$defs".toList, name] := by
      have : ("#/$defs/".toList ++ name) =
          "#".toList ++ '/' :: ("$defs".toList ++ '/' :: name) := rfl
      rw [this, splitSlash_append (by decide),
          splitSlash_append (by decide), splitSlash_noSlash hn]
    have hsplit3 : splitSlash ("#/components/schemas/".toList ++ name)
        = ["#".toList, "components".toList, "schemas".toList, name] := by
      have : ("#/components/schemas/".toList ++ name) =
          "#".toList ++ '/' :: ("components".toList ++ '/' :: ("schemas".toList ++ '/' :: name)) := rfl
      rw [this, splitSlash_append (by decide), splitSlash_append (by decide),
          splitSlash_append (by decide), splitSlash_noSlash hn]
    refine ⟨?_, ?_, ?_⟩
    · unfold sResolvePtr
      rw [hsplit1]
      simp +decide
    · unfold sResolvePtr
      rw [hsplit2]
      simp +decide
    · unfold sResolvePtr
      rw [hsplit3]
      simp +decide
  · decide

theorem C3_ref_pools_witness :
    sResolvePtr c3Schema "#/definitions/User".toList = sLookup "User".toList c3Schema.definitions ∧
    specFinish (some c3Schema) (specProcess sInit "\x7b\"user\":\x7b\"name\":\"A\"".toList).1
      = ",\"id\":null\x7d\x7d".toList :=
  ⟨((C3_ref_pools.1 c3Schema "User".toList (by decide)).1), C3_ref_pools.2⟩

/-- Claim C2 (spec-modelled, `src/healer.ts` is absent from the snapshot):
during `finish()`, for every missing required key `k` of an object frame whose
governing sub-schema is resolvable, the injected value is the sub-schema's
`properties[k].default` resolved through any `$ref` and serialized as compact
JSON when present, and the literal `null` otherwise; the spec's scenario rows 3
and 6 evaluate accordingly. -/
theorem C2_default_injection :
    (∀ (root S : SSchema) (f : SFrame) (rest : List SFrame) (reqs : List (List Char)),
      f.isObject = true →
      specResolveFor root root rest.reverse = some S →
      S.required = some reqs →
      reqs.filter (fun r => !f.keysSeen.contains r) ≠ [] →
      specInjection root f rest =
        (if f.hasContent then [','] else []) ++
          joinComma ((reqs.filter (fun r => !f.keysSeen.contains r)).map
            (fun k => '"' :: (k ++ '"' :: ':' ::
              (match (sLookup k S.properties).bind (sResolveChain root REF_FUEL) with
               | some ps => (ps.dflt.map serialize).getD "null".toList
               | none => "null".toList))))) ∧
    specFinish (some row3Schema) (specProcess sInit "\x7b\"a\":1".toList).1
      = ",\"b\":\"x\",\"c\":42\x7d".toList ∧
    specFinish (some row6Schema) (specProcess sInit "\x7b\"config\":\x7b".toList).1
      = "\"mode\":\"dark\"\x7d\x7d".toList := by
  refine ⟨?_, by decide, by decide⟩
  intro root S f rest reqs hf hres hreq hne
  unfold specInjection
  simp only [hf, hres, hreq, if_true, if_neg hne]
  congr 1
  apply congrArg
  apply List.map_congr_left
  intro k _
  rw [specValueFor_eq]

theorem C2_default_injection_witness :
    specInjection row3Schema
        ((specProcess sInit "\x7b\"a\":1".toList).1.stack.headD sObjFrame) []
      = ",\"b\":\"x\",\"c\":42".toList := by
  have := C2_default_injection.1 row3Schema row3Schema
    ((specProcess sInit "\x7b\"a\":1".toList).1.stack.headD sObjFrame) []
    ["a".toList, "b".toList, "c".toList] (by decide) rfl rfl (by decide)
  rw [this]
  decide

theorem refStep_stack_cases (st : RState) (c : Char) :
    (refStep st c).stack = st.stack ∨
    (refStep st c).stack = objFrame :: st.stack ∨
    (refStep st c).stack = arrFrame :: st.stack ∨
    (refStep st c).stack = st.stack.tail ∨
    (∃ top rest ck ks, st.stack = top :: rest ∧
      (refStep st c).stack = { top with currentKey := ck, keysSeen := ks } :: rest) := by
  unfold refStep
  split
  · split
    · left; rfl
    · split
      · left; rfl
      · split
        · split
          · split
            · rename_i top rest heq _
              right; right; right; right
              exact ⟨top, rest, _, _, heq, rfl⟩
            · left; rfl
          · left; rfl
        · split
          · split
            · left; rfl
            · left; rfl
          · left; rfl
  · split
    · left; rfl
    · split
      · left; rfl
      · split
        · split
          · split
            · rename_i top rest heq _
              right; right; right; right
              exact ⟨top, rest, _, _, heq, rfl⟩
            · left; rfl
          · left; rfl
        · split
          · right; left; rfl
          · split
            · right; right; left; rfl
            · split
              · split
                · split
                  · rename_i heq _
                    right; right; right; left
                    rw [heq]; rfl
                  · left; rfl
                · left; rfl
              · left; rfl

theorem stackClosers_step {st : RState} (h : stackClosers st) (c : Char) :
    stackClosers (refStep st c) := by
  rcases refStep_stack_cases st c with hc | hc | hc | hc | ⟨top, rest, ck, ks, hs, hc⟩
  · intro f hf; exact h f (hc ▸ hf)
  · intro f hf
    rw [hc] at hf
    rcases List.mem_cons.mp hf with rfl | hf
    · decide
    · exact h f hf
  · intro f hf
    rw [hc] at hf
    rcases List.mem_cons.mp hf with rfl | hf
    · decide
    · exact h f hf
  · intro f hf
    exact h f (List.mem_of_mem_tail (hc ▸ hf))
  · intro f hf
    rw [hc] at hf
    rcases List.mem_cons.mp hf with rfl | hf
    · exact h top (hs ▸ List.mem_cons_self _ _)
    · exact h f (hs ▸ List.mem_cons_of_mem _ hf)

theorem stackClosers_scan {st : RState} (h : stackClosers st) (t : List Char) :
    stackClosers (refScan st t) := by
  induction t generalizing st with
  | nil => exact h
  | cons a t ih => exact ih (stackClosers_step h a)

theorem refStep_plain {st : RState} {c : Char} (hin : st.inString = false)
    (h1 : c ≠ '"') (h2 : c ≠ lbrace) (h3 : c ≠ lbrack) (h4 : c ≠ rbrace) (h5 : c ≠ rbrack) :
    stackChars (refStep st c) = stackChars st ∧ (refStep st c).inString = false ∧
    (refStep st c).isEscaped = st.isEscaped := by
  by_cases hcol : c = ':'
  · subst hcol; simp [refStep, hin]
  by_cases hcom : c = ','
  · subst hcom
    rcases hs : st.stack with _ | ⟨top, rest⟩
    · simp +decide [refStep, hin, hs]
    · by_cases hto : top.isObject = true <;>
        simp +decide [refStep, hin, hs, hto, stackChars]
  · simp [refStep, hin, h1, h2, h3, h4, h5, hcol, hcom]

theorem refStep_instring_plain {st : RState} {c : Char} (hin : st.inString = true)
    (hesc : st.isEscaped = false) (h1 : c ≠ '"') (h2 : c ≠ '\\') :
    stackChars (refStep st c) = stackChars st ∧ (refStep st c).inString = true ∧
    (refStep st c).isEscaped = false := by
  rcases hs : st.stack with _ | ⟨top, rest⟩
  · simp [refStep, hin, hesc, h1, h2, hs]
  · by_cases hto : (top.isObject && top.currentKey = none) = true <;>
      simp [refStep, hin, hesc, h1, h2, hs, hto, stackChars]

theorem refStep_quote_open {st : RState} (hin : st.inString = false) :
    stackChars (refStep st '"') = stackChars st ∧ (refStep st '"').inString = true ∧
    (refStep st '"').isEscaped = st.isEscaped := by
  simp [refStep, hin, stackChars]

theorem refStep_quote_close {st : RState} (hin : st.inString = true)
    (hesc : st.isEscaped = false) :
    stackChars (refStep st '"') = stackChars st ∧ (refStep st '"').inString = false ∧
    (refStep st '"').isEscaped = false := by
  rcases hs : st.stack with _ | ⟨top, rest⟩
  · simp [refStep, hin, hesc, hs, stackChars]
  · by_cases hto : (top.isObject && top.currentKey = none) = true <;>
      simp +decide [refStep, hin, hesc, hs, hto, stackChars]

theorem refScan_append (st : RState) (a b : List Char) :
    refScan st (a ++ b) = refScan (refScan st a) b := by
  simp [refScan, List.foldl_append]

theorem scan_key_chars {k : List Char} (hk : keyClean k = true) :
    ∀ (st : RState), st.inString = true → st.isEscaped = false →
    stackChars (refScan st k) = stackChars st ∧ (refScan st k).inString = true ∧
    (refScan st k).isEscaped = false := by
  induction k with
  | nil => intro st h1 h2; exact ⟨rfl, h1, h2⟩
  | cons c cs ih =>
    intro st h1 h2
    have hk' : (!(c = '"' || c = '\\')) = true ∧ keyClean cs = true := by
      simpa [keyClean, Bool.and_eq_true] using hk
    have hc : ¬(c = '"' ∨ c = '\\') := by
      have hx := hk'.1
      simp only [Bool.not_eq_true', decide_eq_false_iff_not] at hx
      simpa using hx
    have hcs : keyClean cs = true := hk'.2
    push_neg at hc
    obtain ⟨hq, hb⟩ := hc
    have hstep := refStep_instring_plain h1 h2 hq hb
    have := ih hcs (refStep st c) hstep.2.1 hstep.2.2
    refine ⟨?_, this.2.1, this.2.2⟩
    show stackChars (refScan (refStep st c) cs) = stackChars st
    rw [this.1, hstep.1]

theorem scan_quoted_entry {k : List Char} (hk : keyClean k = true) (st : RState)
    (hin : st.inString = false) (hesc : st.isEscaped = false) :
    stackChars (refScan st ('"' :: (k ++ '"' :: ':' :: "null".toList))) = stackChars st ∧
    (refScan st ('"' :: (k ++ '"' :: ':' :: "null".toList))).inString = false ∧
    (refScan st ('"' :: (k ++ '"' :: ':' :: "null".toList))).isEscaped = false := by
  have h0 := refStep_quote_open hin
  rw [hesc] at h0
  have heq : refScan st ('"' :: (k ++ '"' :: ':' :: "null".toList)) =
      refScan (refScan (refStep st '"') k) ('"' :: ':' :: "null".toList) := by
    show refScan st (['"'] ++ (k ++ ('"' :: ':' :: "null".toList))) = _
    rw [refScan_append, refScan_append]
    rfl
  rw [heq]
  have h1 := scan_key_chars hk (refStep st '"') h0.2.1 h0.2.2
  have h2 := refStep_quote_close h1.2.1 h1.2.2
  set st2 := refStep (refScan (refStep st '"') k) '"' with hst2
  have heq2 : refScan (refScan (refStep st '"') k) ('"' :: ':' :: "null".toList) =
      refScan st2 (':' :: "null".toList) := rfl
  rw [heq2]
  have hrest : ∀ (u : List Char) (s : RState), s.inString = false → s.isEscaped = false →
      (∀ c ∈ u, c ≠ '"' ∧ c ≠ lbrace ∧ c ≠ lbrack ∧ c ≠ rbrace ∧ c ≠ rbrack) →
      stackChars (refScan s u) = stackChars s ∧ (refScan s u).inString = false ∧
      (refScan s u).isEscaped = false := by
    intro u
    induction u with
    | nil => intro s hi he _; exact ⟨rfl, hi, he⟩
    | cons a u ih =>
      intro s hi he hu
      obtain ⟨ha1, ha2, ha3, ha4, ha5⟩ := hu a (List.mem_cons_self a u)
      have hstep := refStep_plain hi ha1 ha2 ha3 ha4 ha5
      rw [he] at hstep
      have := ih (refStep s a) hstep.2.1 hstep.2.2
        (fun c hc => hu c (List.mem_cons_of_mem a hc))
      exact ⟨by rw [show refScan s (a :: u) = refScan (refStep s a) u from rfl, this.1, hstep.1],
        this.2.1, this.2.2⟩
  have h3 := hrest (':' :: "null".toList) st2 h2.2.1 h2.2.2 (by decide)
  refine ⟨?_, h3.2.1, h3.2.2⟩
  rw [h3.1, h2.1, h1.1, h0.1]

theorem scan_join {ks : List (List Char)} (h : ks.all keyClean = true) :
    ∀ (st : RState), st.inString = false → st.isEscaped = false →
    stackChars (refScan st (joinComma (ks.map (fun k => '"' :: (k ++ '"' :: ':' :: "null".toList)))))
        = stackChars st ∧
    (refScan st (joinComma (ks.map (fun k => '"' :: (k ++ '"' :: ':' :: "null".toList))))).inString
        = false ∧
    (refScan st (joinComma (ks.map (fun k => '"' :: (k ++ '"' :: ':' :: "null".toList))))).isEscaped
        = false := by
  induction ks with
  | nil => intro st hin hesc; exact ⟨rfl, hin, hesc⟩
  | cons k ks ih =>
    intro st hin hesc
    have hk : keyClean k = true ∧ ks.all keyClean = true := by
      simpa [Bool.and_eq_true] using h
    rcases ks with _ | ⟨k', ks'⟩
    · exact scan_quoted_entry hk.1 st hin hesc
    · have heq : joinComma (((k :: k' :: ks').map (fun k => '"' :: (k ++ '"' :: ':' :: "null".toList))))
          = ('"' :: (k ++ '"' :: ':' :: "null".toList)) ++
              ',' :: joinComma ((k' :: ks').map (fun k => '"' :: (k ++ '"' :: ':' :: "null".toList))) := rfl
      rw [heq, refScan_append]
      have h1 := scan_quoted_entry hk.1 st hin hesc
      set st1 := refScan st ('"' :: (k ++ '"' :: ':' :: "null".toList))
      have h2 := @refStep_plain st1 ',' h1.2.1 (by decide) (by decide) (by decide) (by decide) (by decide)
      rw [h1.2.2] at h2
      have heq2 : refScan st1 (',' :: joinComma ((k' :: ks').map (fun k => '"' :: (k ++ '"' :: ':' :: "null".toList))))
          = refScan (refStep st1 ',') (joinComma ((k' :: ks').map (fun k => '"' :: (k ++ '"' :: ':' :: "null".toList)))) := rfl
      rw [heq2]
      have h3 := ih hk.2 (refStep st1 ',') h2.2.1 h2.2.2
      exact ⟨by rw [h3.1, h2.1, h1.1], h3.2.1, h3.2.2⟩

theorem rLookup_clean {ps : List (List Char × RSchema)} {k : List Char} {s : RSchema}
    (hc : cleanProps ps = true) (h : rLookup k ps = some s) : cleanReq s = true := by
  induction ps with
  | nil => simp [rLookup] at h
  | cons p ps ih =>
    have hc' : cleanReq p.2 = true ∧ cleanProps ps = true := by
      simpa [cleanProps, Bool.and_eq_true] using hc
    by_cases hk : p.1 = k
    · rw [rLookup, if_pos hk] at h
      obtain rfl := Option.some.injEq .. ▸ h
      exact hc'.1
    · rw [rLookup, if_neg hk] at h
      exact ih hc'.2 h

theorem cleanReq_parts {t : Option (List Char)} {props : List (List Char × RSchema)}
    {req : Option (List (List Char))} {items : Option RSchema}
    (h : cleanReq (.mk t props req items) = true) :
    (match req with | none => true | some rs => rs.all keyClean) = true ∧
    cleanProps props = true ∧
    (match items with | none => true | some s => cleanReq s) = true := by
  rcases req with _ | rs <;> rcases items with _ | it <;>
  · unfold cleanReq at h
    rcases Bool.and_eq_true_iff.mp h with ⟨h1, h2⟩
    rcases Bool.and_eq_true_iff.mp h1 with ⟨h3, h4⟩
    exact ⟨h3, h4, h2⟩

theorem rDescend_clean {cur s : RSchema} {fr : RFrame}
    (hc : cleanReq cur = true) (h : rDescend cur fr = some s) : cleanReq s = true := by
  rcases cur with ⟨t, props, req, items⟩
  obtain ⟨-, hprops, hitems⟩ := cleanReq_parts hc
  unfold rDescend at h
  split at h
  · rcases items with _ | it
    · simp [RSchema.items] at h
    · have hit : it = s := by simpa [RSchema.items] using h
      subst hit
      simpa [RSchema.items] using hitems
  · split at h
    · rcases hck : fr.currentKey with _ | k
      · rw [hck] at h; simp at h
      · rw [hck] at h
        have h' : (if k ≠ [] then rLookup k props else none) = some s := h
        split at h'
        · exact rLookup_clean hprops h'
        · simp at h'
    · simp at h

theorem rWalk_clean {cur s : RSchema} {frs : List RFrame}
    (hc : cleanReq cur = true) (h : rWalk (some cur) frs = some s) : cleanReq s = true := by
  induction frs generalizing cur with
  | nil =>
    obtain rfl : cur = s := by simpa [rWalk] using h
    exact hc
  | cons fr frs ih =>
    rw [rWalk] at h
    rcases hd : rDescend cur fr with _ | nxt
    · rw [hd] at h
      have : rWalk none frs = none := by
        rcases frs with _ | ⟨g, gs⟩ <;> rfl
      rw [this] at h
      simp at h
    · rw [hd] at h
      exact ih (rDescend_clean hc hd) h

theorem refMissing_clean {sch : Option RSchema} {anc : List RFrame} {f : RFrame}
    (hc : schemaClean sch = true) : (refMissing sch anc f).all keyClean = true := by
  rcases sch with _ | root
  · rfl
  · have hme : refMissing (some root) anc f =
        (match rWalk (some root) anc with
         | none => []
         | some cur =>
           if cur.type = some "object".toList then
             match cur.required with
             | some reqs => reqs.filter (fun r => !f.keysSeen.contains r)
             | none => []
           else []) := rfl
    rw [hme]
    rcases hw : rWalk (some root) anc with _ | cur
    · rfl
    · have hcur := rWalk_clean (show cleanReq root = true from hc) hw
      rcases cur with ⟨t, props, req, items⟩
      obtain ⟨hreq, -, -⟩ := cleanReq_parts hcur
      rcases req with _ | rs
      · show ((if (RSchema.mk t props none items).type = some "object".toList then
                ([] : List (List Char)) else []).all keyClean) = true
        split <;> rfl
      · have hall : rs.all keyClean = true := hreq
        show ((if (RSchema.mk t props (some rs) items).type = some "object".toList then
                rs.filter (fun r => !f.keysSeen.contains r) else []).all keyClean) = true
        split
        · rw [List.all_eq_true] at hall ⊢
          intro x hx
          exact hall x (List.mem_of_mem_filter hx)
        · rfl

theorem scan_injection {sch : Option RSchema} (hc : schemaClean sch = true)
    (f : RFrame) (rest : List RFrame) (st : RState)
    (hin : st.inString = false) (hesc : st.isEscaped = false) :
    stackChars (refScan st (refInjection sch f rest)) = stackChars st ∧
    (refScan st (refInjection sch f rest)).inString = false ∧
    (refScan st (refInjection sch f rest)).isEscaped = false := by
  unfold refInjection
  by_cases h1 : (f.isObject && sch.isSome) = true
  · rw [if_pos h1]
    by_cases h2 : refMissing sch rest.reverse f ≠ []
    · rw [if_pos h2]
      have hall : (refMissing sch rest.reverse f).all keyClean = true := refMissing_clean hc
      by_cases h3 : f.keysSeen ≠ []
      · rw [if_pos h3]
        have heq : ([','] ++ joinComma ((refMissing sch rest.reverse f).map
            (fun k => '"' :: (k ++ '"' :: ':' :: "null".toList)))) =
            ',' :: joinComma ((refMissing sch rest.reverse f).map
              (fun k => '"' :: (k ++ '"' :: ':' :: "null".toList))) := rfl
        rw [heq]
        have hstep := @refStep_plain st ',' hin (by decide) (by decide) (by decide) (by decide) (by decide)
        rw [hesc] at hstep
        have := scan_join hall (refStep st ',') hstep.2.1 hstep.2.2
        exact ⟨by
          rw [show refScan st (',' :: joinComma ((refMissing sch rest.reverse f).map
            (fun k => '"' :: (k ++ '"' :: ':' :: "null".toList)))) =
              refScan (refStep st ',') (joinComma ((refMissing sch rest.reverse f).map
                (fun k => '"' :: (k ++ '"' :: ':' :: "null".toList)))) from rfl]
          rw [this.1, hstep.1], this.2.1, this.2.2⟩
      · rw [if_neg h3]
        have heq : (([] : List Char) ++ joinComma ((refMissing sch rest.reverse f).map
            (fun k => '"' :: (k ++ '"' :: ':' :: "null".toList)))) =
            joinComma ((refMissing sch rest.reverse f).map
              (fun k => '"' :: (k ++ '"' :: ':' :: "null".toList))) := rfl
        rw [heq]
        exact scan_join hall st hin hesc
    · rw [if_neg h2]
      exact ⟨rfl, hin, hesc⟩
  · rw [if_neg h1]
    exact ⟨rfl, hin, hesc⟩

theorem refStep_pop {st : RState} {g : RFrame} {gs : List RFrame} (hin : st.inString = false)
    (hs : st.stack = g :: gs) (hcl : isCloser g.char = true) :
    refStep st g.char = { st with stack := gs } := by
  have h2 : g.char = rbrace ∨ g.char = rbrack := by
    simp [isCloser, decide_eq_true_eq] at hcl
    tauto
  rcases h2 with h2 | h2 <;> rw [h2] <;> simp +decide [refStep, hin, hs, h2]

theorem closersOfMap {S : List RFrame} {st : RState}
    (h : S.map RFrame.char = stackChars st) (hcl : stackClosers st) :
    ∀ f ∈ S, isCloser f.char = true := by
  intro f hf
  have hmem : f.char ∈ stackChars st := h ▸ List.mem_map_of_mem RFrame.char hf
  obtain ⟨g, hg, hge⟩ := List.mem_map.mp hmem
  rw [← hge]
  exact hcl g hg

theorem closeScan {sch : Option RSchema} (hc : schemaClean sch = true) :
    ∀ (frames : List RFrame) (st : RState),
      st.inString = false → st.isEscaped = false →
      stackChars st = frames.map RFrame.char →
      (∀ f ∈ frames, isCloser f.char = true) →
      (refScan st (refCloseStack sch frames)).stack = [] ∧
      (refScan st (refCloseStack sch frames)).inString = false := by
  intro frames
  induction frames with
  | nil =>
    intro st hin hesc hchars _
    refine ⟨?_, hin⟩
    have : st.stack.map RFrame.char = [] := hchars
    exact List.map_eq_nil_iff.mp this
  | cons f rest ih =>
    intro st hin hesc hchars hcl
    have heq : refCloseStack sch (f :: rest)
        = refInjection sch f rest ++ f.char :: refCloseStack sch rest := rfl
    rw [heq, refScan_append]
    have h1 := scan_injection hc f rest st hin hesc
    set st1 := refScan st (refInjection sch f rest) with hst1
    have hchars1 : stackChars st1 = f.char :: rest.map RFrame.char := by
      rw [h1.1, hchars]; rfl
    obtain ⟨g, gs, hgs, hgc, hgsc⟩ :
        ∃ g gs, st1.stack = g :: gs ∧ g.char = f.char ∧ gs.map RFrame.char = rest.map RFrame.char := by
      rcases hss : st1.stack with _ | ⟨g, gs⟩
      · rw [show stackChars st1 = st1.stack.map RFrame.char from rfl, hss] at hchars1
        simp at hchars1
      · rw [show stackChars st1 = st1.stack.map RFrame.char from rfl, hss] at hchars1
        simp only [List.map_cons, List.cons.injEq] at hchars1
        exact ⟨g, gs, rfl, hchars1.1, hchars1.2⟩
    have hfcl : isCloser f.char = true := hcl f (List.mem_cons_self f rest)
    have hpop : refStep st1 f.char = { st1 with stack := gs } := by
      have := refStep_pop h1.2.1 hgs (by rw [hgc]; exact hfcl)
      rw [hgc] at this
      exact this
    have heq2 : refScan st1 (f.char :: refCloseStack sch rest)
        = refScan (refStep st1 f.char) (refCloseStack sch rest) := rfl
    rw [heq2, hpop]
    exact ih { st1 with stack := gs } h1.2.1 h1.2.2 hgsc
      (fun f' hf' => hcl f' (List.mem_cons_of_mem f hf'))

theorem refFinish_started (sch : Option RSchema) (st : RState) (h : st.hasStartedJson = true) :
    ∃ S, refFinish sch st = (if st.inString then ['"'] else []) ++ refCloseStack sch S ∧
      S.map RFrame.char = stackChars st := by
  by_cases hin : st.inString = true
  · rcases hs : st.stack with _ | ⟨top, rest⟩
    · exact ⟨[], by simp [refFinish, h, hin, hs], by simp [stackChars, hs]⟩
    · by_cases hto : top.isObject = true
      · refine ⟨{ top with keysSeen := insertKey st.pendingKeyBuffer top.keysSeen } :: rest,
          by simp [refFinish, h, hin, hs, hto], by simp [stackChars, hs]⟩
      · refine ⟨top :: rest, by simp [refFinish, h, hin, hs, hto], by simp [stackChars, hs]⟩
  · have hin' : st.inString = false := by simpa using hin
    exact ⟨st.stack, by simp [refFinish, h, hin'], rfl⟩

theorem refFinish_trivial (sch : Option RSchema) {st : RState} (h1 : st.hasStartedJson = true)
    (h2 : st.inString = false) (h3 : st.stack = []) : refFinish sch st = [] := by
  simp [refFinish, h1, h2, h3, refCloseStack]

theorem splitAtOpener_cons_opener {d : Char} (l : List Char) (hd : isOpener d = true) :
    splitAtOpener (d :: l) = some ([], d :: l) := by
  simp [splitAtOpener, hd]

/-- Claim C7 counterexample: healing `{"a":"x\` (which ends mid-escape)
yields `{"a":"x\"}`; feeding that output into a fresh healer returns it
verbatim from `process` but `finish` returns `"}` — not the empty string —
so healing is not idempotent in general. -/
theorem C7_counterexample :
    (refProcess rInit (refHeal none "\x7b\"a\":\"x\\".toList)).2
      = refHeal none "\x7b\"a\":\"x\\".toList ∧
    refFinish none (refProcess rInit (refHeal none "\x7b\"a\":\"x\\".toList)).1
      = "\"\x7d".toList ∧
    ("\"\x7d".toList : List Char) ≠ [] := by
  refine ⟨by decide, by decide, by decide⟩

/-- Claim C7 amended: healing is idempotent provided the input contains an
opener, the scanner is not left between a backslash and its escaped character,
and no `required` name in the schema contains a quote or backslash: feeding
`process(x) + finish()` of one healer into a fresh healer with the same schema
returns the same string from `process` and the empty string from `finish`. -/
theorem C7_idempotent_healing (sch : Option RSchema) (x pre z : List Char)
    (hsp : splitAtOpener x = some (pre, z))
    (hesc : (refScan { rInit with hasStartedJson := true } z).isEscaped = false)
    (hclean : schemaClean sch = true) :
    (refProcess rInit (refHeal sch x)).2 = refHeal sch x ∧
    refFinish sch (refProcess rInit (refHeal sch x)).1 = [] := by
  have hsp0 : splitAtOpener (rInit.buffer ++ x) = some (pre, z) := by
    simpa [rInit] using hsp
  have hproc : refProcess rInit x =
      (refScan { rInit with buffer := [], hasStartedJson := true } z, z) :=
    refProcess_phase1_some rfl hsp0
  set started : RState := { rInit with buffer := [], hasStartedJson := true } with hstarted
  set st1 := refScan started z with hst1
  have hheal : refHeal sch x = z ++ refFinish sch st1 := by
    unfold refHeal
    rw [hproc]
  obtain ⟨-, -, d, ds, hz, hd⟩ := splitAtOpener_eq_some hsp
  have hy : splitAtOpener (rInit.buffer ++ refHeal sch x)
      = some ([], refHeal sch x) := by
    have : rInit.buffer ++ refHeal sch x = refHeal sch x := by simp [rInit]
    rw [this, hheal, hz]
    exact splitAtOpener_cons_opener _ hd
  have hproc2 : refProcess rInit (refHeal sch x) =
      (refScan started (refHeal sch x), refHeal sch x) := by
    have := @refProcess_phase1_some rInit (refHeal sch x) [] (refHeal sch x) rfl
      (by rw [hy])
    rw [this]
  constructor
  · rw [hproc2]
  · rw [hproc2]
    have hst2eq : refScan started (refHeal sch x) = refScan st1 (refFinish sch st1) := by
      rw [hheal, refScan_append, hst1]
    rw [hst2eq]
    have hstart1 : st1.hasStartedJson = true := by
      rw [hst1, refScan_hasStarted]
    have hclosers : stackClosers st1 := by
      rw [hst1]
      exact stackClosers_scan (fun f hf => by simp [hstarted, rInit] at hf) z
    obtain ⟨S, hfin, hSchars⟩ := refFinish_started sch st1 hstart1
    have hesc1 : st1.isEscaped = false := hesc
    have hSclosers : ∀ f ∈ S, isCloser f.char = true := closersOfMap hSchars hclosers
    by_cases hin : st1.inString = true
    · rw [hfin, hin, if_pos rfl, List.singleton_append]
      have hq := refStep_quote_close hin hesc1
      have heq2 : refScan st1 ('"' :: refCloseStack sch S)
          = refScan (refStep st1 '"') (refCloseStack sch S) := rfl
      rw [heq2]
      have hcs := closeScan hclean S (refStep st1 '"') hq.2.1 hq.2.2
        (by rw [hq.1, hSchars]) hSclosers
      have hstart2 : (refScan (refStep st1 '"') (refCloseStack sch S)).hasStartedJson = true := by
        rw [refScan_hasStarted, refStep_hasStarted, hstart1]
      exact refFinish_trivial sch hstart2 hcs.2 hcs.1
    · have hin' : st1.inString = false := by simpa using hin
      rw [hfin, hin']
      simp only [Bool.false_eq_true, if_false, List.nil_append]
      have hcs := closeScan hclean S st1 hin' hesc1 hSchars.symm hSclosers
      have hstart2 : (refScan st1 (refCloseStack sch S)).hasStartedJson = true := by
        rw [refScan_hasStarted, hstart1]
      exact refFinish_trivial sch hstart2 hcs.2 hcs.1

theorem C7_idempotent_healing_witness :
    (refProcess rInit (refHeal none "\x7b\"a\":1".toList)).2
      = refHeal none "\x7b\"a\":1".toList ∧
    refFinish none (refProcess rInit (refHeal none "\x7b\"a\":1".toList)).1 = [] :=
  C7_idempotent_healing none "\x7b\"a\":1".toList [] "\x7b\"a\":1".toList
    (by decide) (by decide) rfl

theorem ws_ne {c : Char} (h : isWs c = true) :
    c ≠ '"' ∧ c ≠ lbrace ∧ c ≠ lbrack ∧ c ≠ rbrace ∧ c ≠ rbrack := by
  have hd : c = ' ' ∨ c = '\t' ∨ c = '\n' ∨ c = '\r' := by
    simp [isWs, decide_eq_true_eq] at h
    tauto
  rcases hd with rfl | rfl | rfl | rfl <;>
    exact ⟨by decide, by decide, by decide, by decide, by decide⟩

theorem digit_ne {c : Char} (h : c.isDigit = true) :
    c ≠ '"' ∧ c ≠ lbrace ∧ c ≠ lbrack ∧ c ≠ rbrace ∧ c ≠ rbrack := by
  refine ⟨?_, ?_, ?_, ?_, ?_⟩ <;> (intro h'; subst h'; exact absurd h (by decide))

theorem hex_ne {c : Char} (h : jHex c = true) : c ≠ '"' ∧ c ≠ '\\' := by
  refine ⟨?_, ?_⟩ <;> (intro h'; subst h'; exact absurd h (by decide))

theorem lit_ne {c : Char} (h : litChar c = true) :
    c ≠ '"' ∧ c ≠ lbrace ∧ c ≠ lbrack ∧ c ≠ rbrace ∧ c ≠ rbrack := by
  refine ⟨?_, ?_, ?_, ?_, ?_⟩ <;> (intro h'; subst h'; exact absurd h (by decide))

theorem refStep_push_obj {st : RState} (hin : st.inString = false) :
    refStep st lbrace = { st with stack := objFrame :: st.stack } := by
  simp +decide [refStep, hin]

theorem refStep_push_arr {st : RState} (hin : st.inString = false) :
    refStep st lbrack = { st with stack := arrFrame :: st.stack } := by
  simp +decide [refStep, hin]

theorem stack_head_of_chars {st : RState} {c : Char} {cs : List Char}
    (h : stackChars st = c :: cs) :
    ∃ g gs, st.stack = g :: gs ∧ g.char = c ∧ gs.map RFrame.char = cs := by
  rcases hss : st.stack with _ | ⟨g, gs⟩
  · rw [show stackChars st = st.stack.map RFrame.char from rfl, hss] at h
    simp at h
  · rw [show stackChars st = st.stack.map RFrame.char from rfl, hss] at h
    simp only [List.map_cons, List.cons.injEq] at h
    exact ⟨g, gs, rfl, h.1, h.2⟩

theorem plain_rel {st : RState} {c : Char}
    (hin : st.inString = false) (hesc : st.isEscaped = false)
    (hne : c ≠ '"' ∧ c ≠ lbrace ∧ c ≠ lbrack ∧ c ≠ rbrace ∧ c ≠ rbrack)
    {m : JMode} {stk : List JCtx}
    (hchars : stackChars st = stk.map closerOf)
    (hm1 : strMode m = false) (hm2 : escMode m = false) :
    relScan (refStep st c) ⟨m, stk⟩ := by
  have hstep := refStep_plain hin hne.1 hne.2.1 hne.2.2.1 hne.2.2.2.1 hne.2.2.2.2
  rw [hesc] at hstep
  exact ⟨by rw [hstep.1, hchars], by rw [hstep.2.1, hm1], by rw [hstep.2.2, hm2]⟩

theorem sim_valStart {st : RState} {stk : List JCtx} {c : Char} {out : JCfg}
    (hin : st.inString = false) (hesc : st.isEscaped = false)
    (hchars : stackChars st = stk.map closerOf)
    (hv : valStart stk c = some out) :
    relScan (refStep st c) out := by
  unfold valStart at hv
  split_ifs at hv with h1 h2 h3 h4 h5 h6 h7 h8 h9 <;>
    (obtain rfl := Option.some.inj hv)
  · subst h1
    rw [refStep_push_obj hin]
    exact ⟨by simp [stackChars, closerOf, ← hchars, objFrame], hin, hesc⟩
  · subst h2
    rw [refStep_push_arr hin]
    exact ⟨by simp [stackChars, closerOf, ← hchars, arrFrame], hin, hesc⟩
  · subst h3
    have hq := refStep_quote_open hin
    exact ⟨by rw [hq.1, hchars], hq.2.1, hq.2.2.trans hesc⟩
  · subst h4
    exact plain_rel hin hesc ⟨by decide, by decide, by decide, by decide, by decide⟩ hchars rfl rfl
  · subst h5
    exact plain_rel hin hesc ⟨by decide, by decide, by decide, by decide, by decide⟩ hchars rfl rfl
  · subst h6
    exact plain_rel hin hesc ⟨by decide, by decide, by decide, by decide, by decide⟩ hchars rfl rfl
  · subst h7
    exact plain_rel hin hesc ⟨by decide, by decide, by decide, by decide, by decide⟩ hchars rfl rfl
  · subst h8
    exact plain_rel hin hesc ⟨by decide, by decide, by decide, by decide, by decide⟩ hchars rfl rfl
  · exact plain_rel hin hesc (digit_ne h9) hchars rfl rfl

theorem sim_afterValStep {st : RState} {stk : List JCtx} {c : Char}
    (hin : st.inString = false) (hesc : st.isEscaped = false)
    (hchars : stackChars st = stk.map closerOf)
    (hnr : (afterValStep stk c).mode ≠ .reject) :
    relScan (refStep st c) (afterValStep stk c) := by
  by_cases hws : isWs c = true
  · have he : afterValStep stk c = ⟨.afterVal, stk⟩ := by
      unfold afterValStep; rw [if_pos hws]
    rw [he]
    exact plain_rel hin hesc (ws_ne hws) hchars rfl rfl
  · rcases stk with _ | ⟨ctx, rest⟩
    · exfalso
      apply hnr
      unfold afterValStep
      rw [if_neg hws]
      rfl
    · rcases ctx with _ | _
      · by_cases hc : c = ','
        · subst hc
          have he : afterValStep (.obj :: rest) ',' = ⟨.expKey, .obj :: rest⟩ := by
            unfold afterValStep
            simp +decide
          rw [he]
          exact plain_rel hin hesc ⟨by decide, by decide, by decide, by decide, by decide⟩
            hchars rfl rfl
        · by_cases hb : c = rbrace
          · subst hb
            have he : afterValStep (.obj :: rest) rbrace = ⟨.afterVal, rest⟩ := by
              unfold afterValStep
              simp +decide [hc]
            rw [he]
            obtain ⟨g, gs, hgs, hgc, hgsc⟩ :=
              @stack_head_of_chars st rbrace (rest.map closerOf)
                (by rw [hchars]; rfl)
            have hpop := refStep_pop hin hgs (by rw [hgc]; decide)
            rw [hgc] at hpop
            rw [hpop]
            exact ⟨hgsc, hin, hesc⟩
          · exfalso
            apply hnr
            unfold afterValStep
            rw [if_neg hws]
            simp [hc, hb, jReject]
      · by_cases hc : c = ','
        · subst hc
          have he : afterValStep (.arr :: rest) ',' = ⟨.expVal, .arr :: rest⟩ := by
            unfold afterValStep
            simp +decide
          rw [he]
          exact plain_rel hin hesc ⟨by decide, by decide, by decide, by decide, by decide⟩
            hchars rfl rfl
        · by_cases hb : c = rbrack
          · subst hb
            have he : afterValStep (.arr :: rest) rbrack = ⟨.afterVal, rest⟩ := by
              unfold afterValStep
              simp +decide [hc]
            rw [he]
            obtain ⟨g, gs, hgs, hgc, hgsc⟩ :=
              @stack_head_of_chars st rbrack (rest.map closerOf)
                (by rw [hchars]; rfl)
            have hpop := refStep_pop hin hgs (by rw [hgc]; decide)
            rw [hgc] at hpop
            rw [hpop]
            exact ⟨hgsc, hin, hesc⟩
          · exfalso
            apply hnr
            unfold afterValStep
            rw [if_neg hws]
            simp [hc, hb, jReject]

theorem refStep_backslash {st : RState} (hin : st.inString = true)
    (hesc : st.isEscaped = false) :
    refStep st '\\' = { st with isEscaped := true } := by
  simp [refStep, hin, hesc]

theorem refStep_escaped {st : RState} {c : Char} (hin : st.inString = true)
    (hesc : st.isEscaped = true) :
    refStep st c = { st with isEscaped := false } := by
  simp [refStep, hin, hesc]

theorem sim_instring_plain {st : RState} {c : Char} (hin : st.inString = true)
    (hesc : st.isEscaped = false) (h1 : c ≠ '"') (h2 : c ≠ '\\')
    {m : JMode} {stk : List JCtx} (hchars : stackChars st = stk.map closerOf)
    (hm1 : strMode m = true) (hm2 : escMode m = false) :
    relScan (refStep st c) ⟨m, stk⟩ := by
  have hstep := refStep_instring_plain hin hesc h1 h2
  exact ⟨by rw [hstep.1, hchars], by rw [hstep.2.1, hm1], by rw [hstep.2.2, hm2]⟩

theorem simStep {st : RState} {cfg : JCfg} {c : Char}
    (hrel : relScan st cfg) (hwf : jWF cfg)
    (hnr : (jsonStep cfg c).mode ≠ .reject) :
    relScan (refStep st c) (jsonStep cfg c) := by
  obtain ⟨hchars, hstr, hesc⟩ := hrel
  rcases cfg with ⟨m, stk⟩
  cases m with
  | reject => exact absurd rfl hnr
  | expVal =>
    have hin : st.inString = false := hstr
    have hes : st.isEscaped = false := hesc
    by_cases hws : isWs c = true
    · have he : jsonStep ⟨.expVal, stk⟩ c = ⟨.expVal, stk⟩ := by simp [jsonStep, hws]
      rw [he]
      exact plain_rel hin hes (ws_ne hws) hchars rfl rfl
    · have he : jsonStep ⟨.expVal, stk⟩ c = (valStart stk c).getD jReject := by
        simp [jsonStep, hws]
      rw [he] at hnr ⊢
      rcases hv : valStart stk c with _ | out
      · rw [hv] at hnr
        exact absurd rfl hnr
      · exact sim_valStart hin hes hchars hv
  | arrFirst =>
    have hin : st.inString = false := hstr
    have hes : st.isEscaped = false := hesc
    by_cases hws : isWs c = true
    · have he : jsonStep ⟨.arrFirst, stk⟩ c = ⟨.arrFirst, stk⟩ := by simp [jsonStep, hws]
      rw [he]
      exact plain_rel hin hes (ws_ne hws) hchars rfl rfl
    · by_cases hb : c = rbrack
      · subst hb
        obtain ⟨rest, hstk⟩ := hwf.2.1 rfl
        subst hstk
        have he : jsonStep ⟨.arrFirst, .arr :: rest⟩ rbrack = ⟨.afterVal, rest⟩ := by
          simp +decide [jsonStep]
        rw [he]
        obtain ⟨g, gs, hgs, hgc, hgsc⟩ :=
          @stack_head_of_chars st rbrack (rest.map closerOf)
            (by rw [hchars]; rfl)
        have hpop := refStep_pop hin hgs (by rw [hgc]; decide)
        rw [hgc] at hpop
        rw [hpop]
        exact ⟨hgsc, hin, hes⟩
      · have he : jsonStep ⟨.arrFirst, stk⟩ c = (valStart stk c).getD jReject := by
          simp [jsonStep, hws, hb]
        rw [he] at hnr ⊢
        rcases hv : valStart stk c with _ | out
        · rw [hv] at hnr
          exact absurd rfl hnr
        · exact sim_valStart hin hes hchars hv
  | objFirst =>
    have hin : st.inString = false := hstr
    have hes : st.isEscaped = false := hesc
    by_cases hws : isWs c = true
    · have he : jsonStep ⟨.objFirst, stk⟩ c = ⟨.objFirst, stk⟩ := by simp [jsonStep, hws]
      rw [he]
      exact plain_rel hin hes (ws_ne hws) hchars rfl rfl
    · by_cases hq : c = '"'
      · subst hq
        have he : jsonStep ⟨.objFirst, stk⟩ '"' = ⟨.strK, stk⟩ := by
          simp +decide [jsonStep]
        rw [he]
        have hqo := refStep_quote_open hin
        exact ⟨by rw [hqo.1, hchars], hqo.2.1, hqo.2.2.trans hes⟩
      · by_cases hb : c = rbrace
        · subst hb
          obtain ⟨rest, hstk⟩ := hwf.1 rfl
          subst hstk
          have he : jsonStep ⟨.objFirst, .obj :: rest⟩ rbrace = ⟨.afterVal, rest⟩ := by
            simp +decide [jsonStep]
          rw [he]
          obtain ⟨g, gs, hgs, hgc, hgsc⟩ :=
            @stack_head_of_chars st rbrace (rest.map closerOf)
              (by rw [hchars]; rfl)
          have hpop := refStep_pop hin hgs (by rw [hgc]; decide)
          rw [hgc] at hpop
          rw [hpop]
          exact ⟨hgsc, hin, hes⟩
        · exfalso
          apply hnr
          simp [jsonStep, hws, hq, hb, jReject]
  | expKey =>
    have hin : st.inString = false := hstr
    have hes : st.isEscaped = false := hesc
    by_cases hws : isWs c = true
    · have he : jsonStep ⟨.expKey, stk⟩ c = ⟨.expKey, stk⟩ := by simp [jsonStep, hws]
      rw [he]
      exact plain_rel hin hes (ws_ne hws) hchars rfl rfl
    · by_cases hq : c = '"'
      · subst hq
        have he : jsonStep ⟨.expKey, stk⟩ '"' = ⟨.strK, stk⟩ := by
          simp +decide [jsonStep]
        rw [he]
        have hqo := refStep_quote_open hin
        exact ⟨by rw [hqo.1, hchars], hqo.2.1, hqo.2.2.trans hes⟩
      · exfalso
        apply hnr
        simp [jsonStep, hws, hq, jReject]
  | afterKey =>
    have hin : st.inString = false := hstr
    have hes : st.isEscaped = false := hesc
    by_cases hws : isWs c = true
    · have he : jsonStep ⟨.afterKey, stk⟩ c = ⟨.afterKey, stk⟩ := by simp [jsonStep, hws]
      rw [he]
      exact plain_rel hin hes (ws_ne hws) hchars rfl rfl
    · by_cases hcol : c = ':'
      · subst hcol
        have he : jsonStep ⟨.afterKey, stk⟩ ':' = ⟨.expVal, stk⟩ := by
          simp +decide [jsonStep]
        rw [he]
        exact plain_rel hin hes ⟨by decide, by decide, by decide, by decide, by decide⟩
          hchars rfl rfl
      · exfalso
        apply hnr
        simp [jsonStep, hws, hcol, jReject]
  | afterVal =>
    have hin : st.inString = false := hstr
    have hes : st.isEscaped = false := hesc
    exact sim_afterValStep hin hes hchars hnr
  | strV =>
    have hin : st.inString = true := hstr
    have hes : st.isEscaped = false := hesc
    by_cases hq : c = '"'
    · subst hq
      have he : jsonStep ⟨.strV, stk⟩ '"' = ⟨.afterVal, stk⟩ := by simp [jsonStep]
      rw [he]
      have hqc := refStep_quote_close hin hes
      exact ⟨by rw [hqc.1, hchars], hqc.2.1, hqc.2.2⟩
    · by_cases hbs : c = '\\'
      · subst hbs
        have he : jsonStep ⟨.strV, stk⟩ '\\' = ⟨.escV, stk⟩ := by simp +decide [jsonStep]
        rw [he]
        rw [refStep_backslash hin hes]
        exact ⟨hchars, hin, rfl⟩
      · by_cases hctl : c.toNat < 32
        · exfalso
          apply hnr
          simp [jsonStep, hq, hbs, hctl, jReject]
        · have he : jsonStep ⟨.strV, stk⟩ c = ⟨.strV, stk⟩ := by
            simp [jsonStep, hq, hbs, hctl]
          rw [he]
          exact sim_instring_plain hin hes hq hbs hchars rfl rfl
  | escV =>
    have hin : st.inString = true := hstr
    have hes : st.isEscaped = true := hesc
    rw [refStep_escaped hin hes]
    by_cases hset : (c = '"' || c = '\\' || c = '/' || c = 'b' || c = 'f' || c = 'n' ||
        c = 'r' || c = 't') = true
    · have he : jsonStep ⟨.escV, stk⟩ c = ⟨.strV, stk⟩ := by simp [jsonStep, hset]
      rw [he]
      exact ⟨hchars, hin, rfl⟩
    · by_cases hu : c = 'u'
      · subst hu
        have he : jsonStep ⟨.escV, stk⟩ 'u' = ⟨.uV 4, stk⟩ := by
          simp [jsonStep, hset]
        rw [he]
        exact ⟨hchars, hin, rfl⟩
      · exfalso
        apply hnr
        simp [jsonStep, hset, hu, jReject]
  | uV n =>
    have hin : st.inString = true := hstr
    have hes : st.isEscaped = false := hesc
    by_cases hh : jHex c = true
    · have hne := hex_ne hh
      by_cases hn : n ≤ 1
      · have he : jsonStep ⟨.uV n, stk⟩ c = ⟨.strV, stk⟩ := by
          simp [jsonStep, hh, hn]
        rw [he]
        exact sim_instring_plain hin hes hne.1 hne.2 hchars rfl rfl
      · have he : jsonStep ⟨.uV n, stk⟩ c = ⟨.uV (n - 1), stk⟩ := by
          simp [jsonStep, hh, hn]
        rw [he]
        exact sim_instring_plain hin hes hne.1 hne.2 hchars rfl rfl
    · exfalso
      apply hnr
      simp [jsonStep, hh, jReject]
  | strK =>
    have hin : st.inString = true := hstr
    have hes : st.isEscaped = false := hesc
    by_cases hq : c = '"'
    · subst hq
      have he : jsonStep ⟨.strK, stk⟩ '"' = ⟨.afterKey, stk⟩ := by simp [jsonStep]
      rw [he]
      have hqc := refStep_quote_close hin hes
      exact ⟨by rw [hqc.1, hchars], hqc.2.1, hqc.2.2⟩
    · by_cases hbs : c = '\\'
      · subst hbs
        have he : jsonStep ⟨.strK, stk⟩ '\\' = ⟨.escK, stk⟩ := by simp +decide [jsonStep]
        rw [he]
        rw [refStep_backslash hin hes]
        exact ⟨hchars, hin, rfl⟩
      · by_cases hctl : c.toNat < 32
        · exfalso
          apply hnr
          simp [jsonStep, hq, hbs, hctl, jReject]
        · have he : jsonStep ⟨.strK, stk⟩ c = ⟨.strK, stk⟩ := by
            simp [jsonStep, hq, hbs, hctl]
          rw [he]
          exact sim_instring_plain hin hes hq hbs hchars rfl rfl
  | escK =>
    have hin : st.inString = true := hstr
    have hes : st.isEscaped = true := hesc
    rw [refStep_escaped hin hes]
    by_cases hset : (c = '"' || c = '\\' || c = '/' || c = 'b' || c = 'f' || c = 'n' ||
        c = 'r' || c = 't') = true
    · have he : jsonStep ⟨.escK, stk⟩ c = ⟨.strK, stk⟩ := by simp [jsonStep, hset]
      rw [he]
      exact ⟨hchars, hin, rfl⟩
    · by_cases hu : c = 'u'
      · subst hu
        have he : jsonStep ⟨.escK, stk⟩ 'u' = ⟨.uK 4, stk⟩ := by
          simp [jsonStep, hset]
        rw [he]
        exact ⟨hchars, hin, rfl⟩
      · exfalso
        apply hnr
        simp [jsonStep, hset, hu, jReject]
  | uK n =>
    have hin : st.inString = true := hstr
    have hes : st.isEscaped = false := hesc
    by_cases hh : jHex c = true
    · have hne := hex_ne hh
      by_cases hn : n ≤ 1
      · have he : jsonStep ⟨.uK n, stk⟩ c = ⟨.strK, stk⟩ := by
          simp [jsonStep, hh, hn]
        rw [he]
        exact sim_instring_plain hin hes hne.1 hne.2 hchars rfl rfl
      · have he : jsonStep ⟨.uK n, stk⟩ c = ⟨.uK (n - 1), stk⟩ := by
          simp [jsonStep, hh, hn]
        rw [he]
        exact sim_instring_plain hin hes hne.1 hne.2 hchars rfl rfl
    · exfalso
      apply hnr
      simp [jsonStep, hh, jReject]
  | numSign =>
    have hin : st.inString = false := hstr
    have hes : st.isEscaped = false := hesc
    by_cases h0 : c = '0'
    · subst h0
      have he : jsonStep ⟨.numSign, stk⟩ '0' = ⟨.numZero, stk⟩ := by simp [jsonStep]
      rw [he]
      exact plain_rel hin hes ⟨by decide, by decide, by decide, by decide, by decide⟩
        hchars rfl rfl
    · by_cases hd : c.isDigit = true
      · have he : jsonStep ⟨.numSign, stk⟩ c = ⟨.numInt, stk⟩ := by
          simp [jsonStep, h0, hd]
        rw [he]
        exact plain_rel hin hes (digit_ne hd) hchars rfl rfl
      · exfalso
        apply hnr
        simp [jsonStep, h0, hd, jReject]
  | numZero =>
    have hin : st.inString = false := hstr
    have hes : st.isEscaped = false := hesc
    by_cases hdot : c = '.'
    · subst hdot
      have he : jsonStep ⟨.numZero, stk⟩ '.' = ⟨.numFracStart, stk⟩ := by simp [jsonStep]
      rw [he]
      exact plain_rel hin hes ⟨by decide, by decide, by decide, by decide, by decide⟩
        hchars rfl rfl
    · by_cases hee : (c = 'e' || c = 'E') = true
      · have he : jsonStep ⟨.numZero, stk⟩ c = ⟨.numExpSign, stk⟩ := by
          simp [jsonStep, hdot, hee]
        rw [he]
        have hc' : c = 'e' ∨ c = 'E' := by simpa using hee
        rcases hc' with rfl | rfl <;>
          exact plain_rel hin hes ⟨by decide, by decide, by decide, by decide, by decide⟩
            hchars rfl rfl
      · have he : jsonStep ⟨.numZero, stk⟩ c = afterValStep stk c := by
          simp [jsonStep, hdot, hee]
        rw [he] at hnr ⊢
        exact sim_afterValStep hin hes hchars hnr
  | numInt =>
    have hin : st.inString = false := hstr
    have hes : st.isEscaped = false := hesc
    by_cases hd : c.isDigit = true
    · have he : jsonStep ⟨.numInt, stk⟩ c = ⟨.numInt, stk⟩ := by simp [jsonStep, hd]
      rw [he]
      exact plain_rel hin hes (digit_ne hd) hchars rfl rfl
    · by_cases hdot : c = '.'
      · subst hdot
        have he : jsonStep ⟨.numInt, stk⟩ '.' = ⟨.numFracStart, stk⟩ := by
          simp [jsonStep, hd]
        rw [he]
        exact plain_rel hin hes ⟨by decide, by decide, by decide, by decide, by decide⟩
          hchars rfl rfl
      · by_cases hee : (c = 'e' || c = 'E') = true
        · have he : jsonStep ⟨.numInt, stk⟩ c = ⟨.numExpSign, stk⟩ := by
            simp [jsonStep, hd, hdot, hee]
          rw [he]
          have hc' : c = 'e' ∨ c = 'E' := by simpa using hee
          rcases hc' with rfl | rfl <;>
            exact plain_rel hin hes ⟨by decide, by decide, by decide, by decide, by decide⟩
              hchars rfl rfl
        · have he : jsonStep ⟨.numInt, stk⟩ c = afterValStep stk c := by
            simp [jsonStep, hd, hdot, hee]
          rw [he] at hnr ⊢
          exact sim_afterValStep hin hes hchars hnr
  | numFracStart =>
    have hin : st.inString = false := hstr
    have hes : st.isEscaped = false := hesc
    by_cases hd : c.isDigit = true
    · have he : jsonStep ⟨.numFracStart, stk⟩ c = ⟨.numFrac, stk⟩ := by simp [jsonStep, hd]
      rw [he]
      exact plain_rel hin hes (digit_ne hd) hchars rfl rfl
    · exfalso
      apply hnr
      simp [jsonStep, hd, jReject]
  | numFrac =>
    have hin : st.inString = false := hstr
    have hes : st.isEscaped = false := hesc
    by_cases hd : c.isDigit = true
    · have he : jsonStep ⟨.numFrac, stk⟩ c = ⟨.numFrac, stk⟩ := by simp [jsonStep, hd]
      rw [he]
      exact plain_rel hin hes (digit_ne hd) hchars rfl rfl
    · by_cases hee : (c = 'e' || c = 'E') = true
      · have he : jsonStep ⟨.numFrac, stk⟩ c = ⟨.numExpSign, stk⟩ := by
          simp [jsonStep, hd, hee]
        rw [he]
        have hc' : c = 'e' ∨ c = 'E' := by simpa using hee
        rcases hc' with rfl | rfl <;>
          exact plain_rel hin hes ⟨by decide, by decide, by decide, by decide, by decide⟩
            hchars rfl rfl
      · have he : jsonStep ⟨.numFrac, stk⟩ c = afterValStep stk c := by
          simp [jsonStep, hd, hee]
        rw [he] at hnr ⊢
        exact sim_afterValStep hin hes hchars hnr
  | numExpSign =>
    have hin : st.inString = false := hstr
    have hes : st.isEscaped = false := hesc
    by_cases hpm : (c = '+' || c = '-') = true
    · have he : jsonStep ⟨.numExpSign, stk⟩ c = ⟨.numExpD0, stk⟩ := by
        simp [jsonStep, hpm]
      rw [he]
      have hc' : c = '+' ∨ c = '-' := by simpa using hpm
      rcases hc' with rfl | rfl <;>
        exact plain_rel hin hes ⟨by decide, by decide, by decide, by decide, by decide⟩
          hchars rfl rfl
    · by_cases hd : c.isDigit = true
      · have he : jsonStep ⟨.numExpSign, stk⟩ c = ⟨.numExp, stk⟩ := by
          simp [jsonStep, hpm, hd]
        rw [he]
        exact plain_rel hin hes (digit_ne hd) hchars rfl rfl
      · exfalso
        apply hnr
        simp [jsonStep, hpm, hd, jReject]
  | numExpD0 =>
    have hin : st.inString = false := hstr
    have hes : st.isEscaped = false := hesc
    by_cases hd : c.isDigit = true
    · have he : jsonStep ⟨.numExpD0, stk⟩ c = ⟨.numExp, stk⟩ := by simp [jsonStep, hd]
      rw [he]
      exact plain_rel hin hes (digit_ne hd) hchars rfl rfl
    · exfalso
      apply hnr
      simp [jsonStep, hd, jReject]
  | numExp =>
    have hin : st.inString = false := hstr
    have hes : st.isEscaped = false := hesc
    by_cases hd : c.isDigit = true
    · have he : jsonStep ⟨.numExp, stk⟩ c = ⟨.numExp, stk⟩ := by simp [jsonStep, hd]
      rw [he]
      exact plain_rel hin hes (digit_ne hd) hchars rfl rfl
    · have he : jsonStep ⟨.numExp, stk⟩ c = afterValStep stk c := by
        simp [jsonStep, hd]
      rw [he] at hnr ⊢
      exact sim_afterValStep hin hes hchars hnr
  | lit rem =>
    have hin : st.inString = false := hstr
    have hes : st.isEscaped = false := hesc
    rcases rem with _ | ⟨d, rest⟩
    · exfalso
      apply hnr
      simp [jsonStep, jReject]
    · have hlit : (d :: rest).all litChar = true := hwf.2.2 (d :: rest) rfl
      have hd : litChar d = true ∧ rest.all litChar = true := by
        simpa [Bool.and_eq_true] using hlit
      by_cases hcd : c = d
      · subst hcd
        have hne := lit_ne hd.1
        by_cases hre : rest.isEmpty = true
        · have he : jsonStep ⟨.lit (c :: rest), stk⟩ c = ⟨.afterVal, stk⟩ := by
            simp [jsonStep, hre]
          rw [he]
          exact plain_rel hin hes hne hchars rfl rfl
        · have he : jsonStep ⟨.lit (c :: rest), stk⟩ c = ⟨.lit rest, stk⟩ := by
            simp [jsonStep, hre]
          rw [he]
          exact plain_rel hin hes hne hchars rfl rfl
      · exfalso
        apply hnr
        simp [jsonStep, hcd, jReject]

set_option maxHeartbeats 2000000 in
theorem jWF_step {cfg : JCfg} (h : jWF cfg) (c : Char) : jWF (jsonStep cfg c) := by
  rcases cfg with ⟨m, stk⟩
  cases m <;>
    simp only [jsonStep, valStart, afterValStep] <;>
    (repeat' split) <;>
    (try exact h) <;>
    simp_all [jWF, jReject] <;>
    decide

theorem jsonStep_reject_mode {cfg : JCfg} {c : Char} (h : cfg.mode = .reject) :
    jsonStep cfg c = jReject := by
  rcases cfg with ⟨m, stk⟩
  cases m <;> simp_all
  rfl

theorem jRun_mode_reject {cfg : JCfg} (h : cfg.mode = .reject) (t : List Char) :
    (jRun cfg t).mode = .reject := by
  induction t generalizing cfg with
  | nil => exact h
  | cons c t ih =>
    show (jRun (jsonStep cfg c) t).mode = .reject
    rw [jsonStep_reject_mode h]
    exact ih rfl

theorem jRun_append (cfg : JCfg) (a b : List Char) :
    jRun cfg (a ++ b) = jRun (jRun cfg a) b := by
  simp [jRun, List.foldl_append]

theorem simRun {st : RState} {cfg : JCfg} (hrel : relScan st cfg) (hwf : jWF cfg) :
    ∀ t, (jRun cfg t).mode ≠ .reject →
      relScan (refScan st t) (jRun cfg t) ∧ jWF (jRun cfg t) := by
  intro t
  induction t generalizing st cfg with
  | nil => intro _; exact ⟨hrel, hwf⟩
  | cons c t ih =>
    intro hfin
    have hmid : (jsonStep cfg c).mode ≠ .reject := by
      intro hr
      exact hfin (jRun_mode_reject hr t)
    exact ih (simStep hrel hwf hmid) (jWF_step hwf c) hfin

theorem jClose_accept : ∀ (stk : List JCtx) (m : JMode), acceptMode m = true →
    acceptMode (jRun ⟨m, stk⟩ (stk.map closerOf)).mode = true ∧
    (jRun ⟨m, stk⟩ (stk.map closerOf)).stack = [] := by
  intro stk
  induction stk with
  | nil => intro m hm; exact ⟨hm, rfl⟩
  | cons ctx rest ih =>
    intro m hm
    have he : jsonStep ⟨m, ctx :: rest⟩ (closerOf ctx) = ⟨.afterVal, rest⟩ := by
      cases ctx <;> cases m <;> simp_all +decide [jsonStep, afterValStep, closerOf, acceptMode]
    have heq : jRun ⟨m, ctx :: rest⟩ ((ctx :: rest).map closerOf)
        = jRun (jsonStep ⟨m, ctx :: rest⟩ (closerOf ctx)) (rest.map closerOf) := rfl
    rw [heq, he]
    exact ih .afterVal rfl

theorem refCloseStack_none (l : List RFrame) : refCloseStack none l = l.map RFrame.char := by
  induction l with
  | nil => rfl
  | cons f rest ih =>
    show refInjection none f rest ++ f.char :: refCloseStack none rest = _
    rw [ih]
    simp [refInjection]

theorem opener_split_unique :
    ∀ {p1 s1 p2 s2 : List Char}, p1 ++ s1 = p2 ++ s2 →
      (∀ c ∈ p1, isOpener c = false) → (∀ c ∈ p2, isOpener c = false) →
      (∃ d ds, s1 = d :: ds ∧ isOpener d = true) →
      (∃ d ds, s2 = d :: ds ∧ isOpener d = true) →
      p1 = p2 ∧ s1 = s2 := by
  intro p1
  induction p1 with
  | nil =>
    intro s1 p2 s2 h hf1 hf2 hh1 hh2
    rcases p2 with _ | ⟨c2, p2⟩
    · exact ⟨rfl, h⟩
    · exfalso
      obtain ⟨d, ds, rfl, hd⟩ := hh1
      simp only [List.nil_append, List.cons_append, List.cons.injEq] at h
      have : isOpener c2 = false := hf2 c2 (List.mem_cons_self _ _)
      rw [← h.1] at this
      rw [hd] at this
      exact Bool.true_eq_false.mp this
  | cons c1 p1 ih =>
    intro s1 p2 s2 h hf1 hf2 hh1 hh2
    rcases p2 with _ | ⟨c2, p2⟩
    · exfalso
      obtain ⟨d, ds, rfl, hd⟩ := hh2
      simp only [List.nil_append, List.cons_append, List.cons.injEq] at h
      have : isOpener c1 = false := hf1 c1 (List.mem_cons_self _ _)
      rw [h.1] at this
      rw [hd] at this
      exact Bool.true_eq_false.mp this
    · simp only [List.cons_append, List.cons.injEq] at h
      obtain ⟨rfl, h2⟩ := h
      obtain ⟨hp, hs⟩ := ih h2 (fun d hd => hf1 d (List.mem_cons_of_mem _ hd))
        (fun d hd => hf2 d (List.mem_cons_of_mem _ hd)) hh1 hh2
      exact ⟨by rw [hp], hs⟩

theorem prefix_of_append_opener :
    ∀ {b t p s : List Char}, b ++ t = p ++ s →
      (∀ c ∈ b, isOpener c = false) → (∀ c ∈ p, isOpener c = false) →
      (∃ d ds, s = d :: ds ∧ isOpener d = true) →
      ∃ q, p = b ++ q := by
  intro b
  induction b with
  | nil => intro t p s _ _ _ _; exact ⟨p, rfl⟩
  | cons c b ih =>
    intro t p s h hbf hpf hs
    rcases p with _ | ⟨c2, p2⟩
    · exfalso
      obtain ⟨d, ds, rfl, hd⟩ := hs
      simp only [List.cons_append, List.nil_append, List.cons.injEq] at h
      have : isOpener c = false := hbf c (List.mem_cons_self _ _)
      rw [h.1, hd] at this
      exact Bool.true_eq_false.mp this
    · simp only [List.cons_append, List.cons.injEq] at h
      obtain ⟨rfl, h2⟩ := h
      obtain ⟨q, hq⟩ := ih h2 (fun d hd => hbf d (List.mem_cons_of_mem _ hd))
        (fun d hd => hpf d (List.mem_cons_of_mem _ hd)) hs
      exact ⟨q, by rw [hq, List.cons_append]⟩

theorem refProcess_started (st : RState) (chunk : List Char) (h : st.hasStartedJson = true) :
    refProcess st chunk = (refScan st chunk, chunk) := by
  simp [refProcess, h]

theorem refProcessAll_started :
    ∀ (chs : List (List Char)) (st : RState), st.hasStartedJson = true →
      refProcessAll st chs = (refScan st chs.join, chs.join) := by
  intro chs
  induction chs with
  | nil => intro st _; rfl
  | cons ch chs ih =>
    intro st h
    show (let p := refProcess st ch
          let q := refProcessAll p.1 chs
          (q.1, p.2 ++ q.2)) = _
    rw [refProcess_started st ch h]
    have h2 : (refScan st ch).hasStartedJson = true := by rw [refScan_hasStarted, h]
    simp only [ih (refScan st ch) h2]
    rw [← refScan_append]
    rfl

theorem refProcessAll_preamble :
    ∀ (chunks : List (List Char)) (b p s : List Char),
      (∀ c ∈ p, isOpener c = false) → p.length ≤ MAX_PREAMBLE →
      (∃ d ds, s = d :: ds ∧ isOpener d = true) →
      (∃ q, p = b ++ q) →
      b ++ chunks.join = p ++ s →
      refProcessAll { rInit with buffer := b } chunks
        = (refScan { rInit with buffer := [], hasStartedJson := true } s, s) := by
  intro chunks
  induction chunks with
  | nil =>
    intro b p s hpf hplen hs hpre hjoin
    exfalso
    obtain ⟨q, rfl⟩ := hpre
    obtain ⟨d, ds, rfl, hd⟩ := hs
    simp only [List.join_nil, List.append_nil, List.append_assoc] at hjoin
    have hlen := congrArg List.length hjoin
    simp at hlen
  | cons ch chs ih =>
    intro b p s hpf hplen hs hpre hjoin
    show (let pr := refProcess { rInit with buffer := b } ch
          let q := refProcessAll pr.1 chs
          (q.1, pr.2 ++ q.2)) = _
    have hb : ({ rInit with buffer := b } : RState).buffer ++ ch = b ++ ch := rfl
    rcases hsp : splitAtOpener (b ++ ch) with _ | ⟨pre, rest⟩
    · -- no opener yet: whole of b ++ ch is still preamble
      have hfree : ∀ c ∈ b ++ ch, isOpener c = false := splitAtOpener_eq_none hsp
      have hjoin2 : (b ++ ch) ++ chs.join = p ++ s := by
        rw [List.append_assoc]
        simpa using hjoin
      obtain ⟨q, hq⟩ := prefix_of_append_opener hjoin2 hfree hpf hs
      have hlen2 : (b ++ ch).length ≤ MAX_PREAMBLE := by
        have : (b ++ ch).length ≤ p.length := by
          rw [hq]
          simp
        omega
      have hstep := @refProcess_phase1_none_small { rInit with buffer := b }
        ch rfl (by simpa using hsp) (by simpa using hlen2)
      rw [hstep]
      have := ih (b ++ ch) p s hpf hplen hs ⟨q, hq⟩ hjoin2
      simpa using this
    · -- the opener arrived inside this chunk
      obtain ⟨hbc, hprefree, e, es, hrest, he⟩ := splitAtOpener_eq_some hsp
      have hjoin2 : pre ++ (rest ++ chs.join) = p ++ s := by
        rw [← List.append_assoc, ← hbc, List.append_assoc]
        simpa using hjoin
      obtain ⟨hpe, hse⟩ := opener_split_unique hjoin2 hprefree hpf
        ⟨e, es ++ chs.join, by rw [hrest]; rfl, he⟩ hs
      have hstep := @refProcess_phase1_some { rInit with buffer := b }
        ch pre rest rfl (by simpa using hsp)
      rw [hstep]
      have hrest2 := refProcessAll_started chs
        (refScan { rInit with buffer := [], hasStartedJson := true } rest)
        (by rw [refScan_hasStarted])
      simp only [hrest2]
      rw [← refScan_append, hse]

theorem jWF_init : jWF jInit := by
  unfold jWF
  refine ⟨?_, ?_, ?_⟩
  · intro h
    exact absurd h (by decide)
  · intro h
    exact absurd h (by decide)
  · intro rem h
    exact absurd h (by simp [jInit])

/-- Claim C1 amended: for every input consisting of a preamble of at most 500
characters containing no `{` or `[`, followed by a prefix of a valid JSON
document that starts with `{` or `[` and is truncated at a safe point (the
validity checker is left closable: not awaiting a value or key, not inside an
object-key string, not mid-escape and not mid-literal or mid-number-exponent),
fed to a fresh healer in any chunking, the concatenation of all `process`
outputs is the JSON prefix (the preamble is stripped) and, extended with the
`finish` output, parses as a valid JSON document. -/
theorem C1_wellformedness (p s : List Char) (chunks : List (List Char))
    (hp : ∀ c ∈ p, isOpener c = false) (hlen : p.length ≤ MAX_PREAMBLE)
    (hs : ∃ d ds, s = d :: ds ∧ isOpener d = true)
    (hjoin : chunks.join = p ++ s)
    (hcl : closableMode (jRun jInit s).mode = true) :
    (refProcessAll rInit chunks).2 = s ∧
    jsonOk ((refProcessAll rInit chunks).2
      ++ refFinish none (refProcessAll rInit chunks).1) = true := by
  have hpa := refProcessAll_preamble chunks [] p s hp hlen hs ⟨p, rfl⟩ (by simpa using hjoin)
  have hinit : ({ rInit with buffer := [] } : RState) = rInit := rfl
  rw [hinit] at hpa
  rw [hpa]
  refine ⟨rfl, ?_⟩
  have hnr : (jRun jInit s).mode ≠ .reject := by
    intro hr
    rw [hr] at hcl
    exact absurd hcl (by decide)
  have hrel0 : relScan { rInit with buffer := [], hasStartedJson := true } jInit :=
    ⟨rfl, rfl, rfl⟩
  obtain ⟨hrel1, hwf1⟩ := simRun hrel0 jWF_init s hnr
  obtain ⟨hchars1, hstr1, hesc1⟩ := hrel1
  have hstart1 : (refScan { rInit with buffer := [], hasStartedJson := true } s).hasStartedJson
      = true := by rw [refScan_hasStarted]
  obtain ⟨S, hfin, hSchars⟩ :=
    refFinish_started none (refScan { rInit with buffer := [], hasStartedJson := true } s) hstart1
  have hclose : refCloseStack none S = (jRun jInit s).stack.map closerOf := by
    rw [refCloseStack_none, hSchars, hchars1]
  rw [hfin, hclose]
  unfold jsonOk
  rw [jRun_append]
  rw [hstr1]
  obtain ⟨stk1, hstk⟩ : ∃ k, (jRun jInit s).stack = k := ⟨_, rfl⟩
  rw [hstk]
  cases hmode : (jRun jInit s).mode <;> rw [hmode] at hcl <;>
    try simp [closableMode] at hcl
  case afterVal =>
    have hcfge : jRun jInit s = ⟨.afterVal, stk1⟩ := by
      conv_lhs => rw [show (jRun jInit s) = ⟨(jRun jInit s).mode, (jRun jInit s).stack⟩ from rfl]
      rw [hmode, hstk]
    rw [hcfge]
    have hacc := jClose_accept stk1 .afterVal rfl
    simp only [strMode, Bool.false_eq_true, if_false, List.nil_append]
    rw [Bool.and_eq_true]
    exact ⟨hacc.1, by rw [hacc.2]; rfl⟩
  case objFirst =>
    obtain ⟨rest, hrest⟩ := hwf1.1 hmode
    rw [hstk] at hrest
    subst hrest
    have hcfge : jRun jInit s = ⟨.objFirst, .obj :: rest⟩ := by
      conv_lhs => rw [show (jRun jInit s) = ⟨(jRun jInit s).mode, (jRun jInit s).stack⟩ from rfl]
      rw [hmode, hstk]
    rw [hcfge]
    simp only [strMode, Bool.false_eq_true, if_false, List.nil_append]
    have hstep1 : jRun ⟨.objFirst, .obj :: rest⟩ ((JCtx.obj :: rest).map closerOf)
        = jRun ⟨.afterVal, rest⟩ (rest.map closerOf) := by
      show jRun (jsonStep ⟨.objFirst, .obj :: rest⟩ (closerOf .obj)) (rest.map closerOf) = _
      have hst : jsonStep ⟨.objFirst, .obj :: rest⟩ (closerOf .obj) = ⟨.afterVal, rest⟩ := by
        simp +decide [jsonStep, closerOf]
      rw [hst]
    rw [hstep1]
    have hacc := jClose_accept rest .afterVal rfl
    rw [Bool.and_eq_true]
    exact ⟨hacc.1, by rw [hacc.2]; rfl⟩
  case arrFirst =>
    obtain ⟨rest, hrest⟩ := hwf1.2.1 hmode
    rw [hstk] at hrest
    subst hrest
    have hcfge : jRun jInit s = ⟨.arrFirst, .arr :: rest⟩ := by
      conv_lhs => rw [show (jRun jInit s) = ⟨(jRun jInit s).mode, (jRun jInit s).stack⟩ from rfl]
      rw [hmode, hstk]
    rw [hcfge]
    simp only [strMode, Bool.false_eq_true, if_false, List.nil_append]
    have hstep1 : jRun ⟨.arrFirst, .arr :: rest⟩ ((JCtx.arr :: rest).map closerOf)
        = jRun ⟨.afterVal, rest⟩ (rest.map closerOf) := by
      show jRun (jsonStep ⟨.arrFirst, .arr :: rest⟩ (closerOf .arr)) (rest.map closerOf) = _
      have hst : jsonStep ⟨.arrFirst, .arr :: rest⟩ (closerOf .arr) = ⟨.afterVal, rest⟩ := by
        simp +decide [jsonStep, closerOf]
      rw [hst]
    rw [hstep1]
    have hacc := jClose_accept rest .afterVal rfl
    rw [Bool.and_eq_true]
    exact ⟨hacc.1, by rw [hacc.2]; rfl⟩
  case strV =>
    have hcfge : jRun jInit s = ⟨.strV, stk1⟩ := by
      conv_lhs => rw [show (jRun jInit s) = ⟨(jRun jInit s).mode, (jRun jInit s).stack⟩ from rfl]
      rw [hmode, hstk]
    rw [hcfge]
    simp only [strMode, if_true]
    have hstep1 : jRun ⟨.strV, stk1⟩ ('"' :: stk1.map closerOf)
        = jRun ⟨.afterVal, stk1⟩ (stk1.map closerOf) := by
      show jRun (jsonStep ⟨.strV, stk1⟩ '"') (stk1.map closerOf) = _
      have hst : jsonStep ⟨.strV, stk1⟩ '"' = ⟨.afterVal, stk1⟩ := by
        simp [jsonStep]
      rw [hst]
    rw [show (['"'] ++ stk1.map closerOf : List Char) = '"' :: stk1.map closerOf from rfl,
        hstep1]
    have hacc := jClose_accept stk1 .afterVal rfl
    rw [Bool.and_eq_true]
    exact ⟨hacc.1, by rw [hacc.2]; rfl⟩
  case numZero =>
    have hcfge : jRun jInit s = ⟨.numZero, stk1⟩ := by
      conv_lhs => rw [show (jRun jInit s) = ⟨(jRun jInit s).mode, (jRun jInit s).stack⟩ from rfl]
      rw [hmode, hstk]
    rw [hcfge]
    have hacc := jClose_accept stk1 .numZero rfl
    simp only [strMode, Bool.false_eq_true, if_false, List.nil_append]
    rw [Bool.and_eq_true]
    exact ⟨hacc.1, by rw [hacc.2]; rfl⟩
  case numInt =>
    have hcfge : jRun jInit s = ⟨.numInt, stk1⟩ := by
      conv_lhs => rw [show (jRun jInit s) = ⟨(jRun jInit s).mode, (jRun jInit s).stack⟩ from rfl]
      rw [hmode, hstk]
    rw [hcfge]
    have hacc := jClose_accept stk1 .numInt rfl
    simp only [strMode, Bool.false_eq_true, if_false, List.nil_append]
    rw [Bool.and_eq_true]
    exact ⟨hacc.1, by rw [hacc.2]; rfl⟩
  case numFrac =>
    have hcfge : jRun jInit s = ⟨.numFrac, stk1⟩ := by
      conv_lhs => rw [show (jRun jInit s) = ⟨(jRun jInit s).mode, (jRun jInit s).stack⟩ from rfl]
      rw [hmode, hstk]
    rw [hcfge]
    have hacc := jClose_accept stk1 .numFrac rfl
    simp only [strMode, Bool.false_eq_true, if_false, List.nil_append]
    rw [Bool.and_eq_true]
    exact ⟨hacc.1, by rw [hacc.2]; rfl⟩
  case numExp =>
    have hcfge : jRun jInit s = ⟨.numExp, stk1⟩ := by
      conv_lhs => rw [show (jRun jInit s) = ⟨(jRun jInit s).mode, (jRun jInit s).stack⟩ from rfl]
      rw [hmode, hstk]
    rw [hcfge]
    have hacc := jClose_accept stk1 .numExp rfl
    simp only [strMode, Bool.false_eq_true, if_false, List.nil_append]
    rw [Bool.and_eq_true]
    exact ⟨hacc.1, by rw [hacc.2]; rfl⟩

/-- Claim C1 counterexample: `{"a":` is a prefix of the valid JSON document
`{"a":1}` and has no preamble, yet the healed output `{"a":}` does not parse
as JSON. -/
theorem C1_counterexample :
    jsonOk "\x7b\"a\":1\x7d".toList = true ∧
    refHeal none "\x7b\"a\":".toList = "\x7b\"a\":\x7d".toList ∧
    jsonOk (refHeal none "\x7b\"a\":".toList) = false := by
  refine ⟨by decide, by decide, by decide⟩

theorem C1_wellformedness_witness :
    (refProcessAll rInit ["ok: \x7b\"a\"".toList, ": 1".toList]).2 = "\x7b\"a\": 1".toList ∧
    jsonOk ((refProcessAll rInit ["ok: \x7b\"a\"".toList, ": 1".toList]).2
      ++ refFinish none (refProcessAll rInit ["ok: \x7b\"a\"".toList, ": 1".toList]).1) = true :=
  C1_wellformedness "ok: ".toList "\x7b\"a\": 1".toList
    ["ok: \x7b\"a\"".toList, ": 1".toList]
    (by decide) (by decide) ⟨lbrace, "\"a\": 1".toList, by decide, by decide⟩
    (by decide) (by decide)
